import Mathlib

/-!
Shallow embedding of the LPERFECT-M distributed Lagrangian routing core
(src/lperfect), together with theorems settling the claims about it.

Floating-point (float64) arithmetic of the source is modelled by exact
rational arithmetic over rationals; NaN and infinity have no counterpart, so
the isfinite guards of the source are always true in the model and results
that the source marks NaN are modelled by Option-none.  Machine integers
(int32) are modelled by integers; no claim probes int32 overflow.
-/

namespace LPerfect

/-! ### particles.py -/

/-- Embedding of the structure-of-arrays container of src/lperfect/particles.py.
One element of the container: row and column are int32 in the source
(modelled by integers), volume and remaining travel time are float64
(modelled by rationals).  A numpy SoA container is modelled as a list of
these records; all numpy boolean-mask filters preserve order, as does
List.filter. -/
structure Particle where
  r : ℤ
  c : ℤ
  vol : ℚ
  tau : ℚ
deriving DecidableEq, Repr

/-! ### runoff.py -/

/-- Per-cell body of scs_cn_cumulative_runoff_mm (src/lperfect/runoff.py,
lines 40-62).  The source initializes Q to zero, masks ok cells with
0 < CN and CN <= 100 (the isfinite checks are vacuous over the rationals),
sets S = 25400/CN - 254 on ok cells, Ia = ia_ratio * S, and writes
(P - Ia)^2 / (P - Ia + S) exactly where ok, P > Ia and S > 0 hold; S and Ia
are spelled out inline below.  The early returns of the source when no cell
satisfies ok or cond return the same zero values and are therefore elided. -/
def scsCell (P CN ia_ratio : ℚ) : ℚ :=
  if 0 < CN ∧ CN ≤ 100 then
    if ia_ratio * (25400 / CN - 254) < P ∧ 0 < 25400 / CN - 254 then
      (P - ia_ratio * (25400 / CN - 254)) ^ 2 /
        (P - ia_ratio * (25400 / CN - 254) + (25400 / CN - 254))
    else 0
  else 0

/-- Embedding of scs_cn_cumulative_runoff_mm (src/lperfect/runoff.py,
lines 13-62): the elementwise numpy computation applied to each cell of the
precipitation and curve-number rasters. -/
def scs_cn_cumulative_runoff_mm {α : Type} (P_cum_mm CN : α → ℚ) (ia_ratio : ℚ) :
    α → ℚ :=
  fun i => scsCell (P_cum_mm i) (CN i) ia_ratio

/-! ### mpi_utils.py : slab decomposition -/

/-- Row count owned by rank i, from slab_counts_starts
(src/lperfect/mpi_utils.py, lines 40-49): floor division plus one extra row
for the first nrows mod size ranks. -/
def slab_counts (nrows size i : ℕ) : ℕ :=
  nrows / size + if i < nrows % size then 1 else 0

/-- Start row of rank i: prefix sum of the counts, as computed by the cumsum
in slab_counts_starts. -/
def slab_starts (nrows size i : ℕ) : ℕ :=
  ∑ j ∈ Finset.range i, slab_counts nrows size j

/-- Embedding of slab_counts_starts itself: the pair of per-rank count and
start maps. -/
def slab_counts_starts (nrows size : ℕ) : (ℕ → ℕ) × (ℕ → ℕ) :=
  (slab_counts nrows size, slab_starts nrows size)

/-- Embedding of slab_bounds (src/lperfect/mpi_utils.py, lines 52-60):
the half-open row range [r0, r1) owned by a rank. -/
def slab_bounds (nrows size rank : ℕ) : ℕ × ℕ :=
  (slab_starts nrows size rank, slab_starts nrows size rank + slab_counts nrows size rank)

/-- End row (exclusive) of rank i, the ends array of rank_of_row. -/
def slab_ends (nrows size i : ℕ) : ℕ :=
  slab_starts nrows size i + slab_counts nrows size i

/-- Embedding of rank_of_row (src/lperfect/mpi_utils.py, lines 63-69).
np.searchsorted(ends, r, side="right") on the sorted ends array returns the
number of entries that are <= r, which is the count below.  Row indices are
int32 in the source, hence the integer argument. -/
def rank_of_row (r : ℤ) (nrows size : ℕ) : ℕ :=
  (List.range size).countP (fun i => (slab_ends nrows size i : ℤ) ≤ r)

/-! ### mpi_utils.py : particle migration -/

/-- Destination rank of one particle, as computed in migrate_particles_slab. -/
def migrate_dest (nrows size : ℕ) (p : Particle) : ℕ :=
  rank_of_row p.r nrows size

/-- Particles kept locally by migrate_particles_slab: destination equals the
own rank. -/
def migrate_keep (nrows size rank : ℕ) (ps : List Particle) : List Particle :=
  ps.filter (fun p => migrate_dest nrows size p = rank)

/-- Send buffer from rank src to rank dst (src/lperfect/mpi_utils.py,
lines 116-131): empty for the self-destination, otherwise the particles of
src whose destination is dst.  Packing to float64 rows and unpacking is the
identity on the model (int32 coordinates are exactly representable in
float64). -/
def migrate_send (nrows size : ℕ) (ps : List Particle) (src dst : ℕ) : List Particle :=
  if dst = src then [] else ps.filter (fun p => migrate_dest nrows size p = dst)

/-- Embedding of migrate_particles_slab (src/lperfect/mpi_utils.py,
lines 100-144), seen from one receiving rank of an N-rank exchange whose
per-rank containers are given by parts.  The result concatenates the locally
kept particles with the buffers received from every source rank in rank
order, which is how Alltoallv lays out the receive buffer. -/
def migrate_particles_slab (parts : ℕ → List Particle) (nrows size rank : ℕ) :
    List Particle :=
  migrate_keep nrows size rank (parts rank) ++
    (List.range size).flatMap (fun src => migrate_send nrows size (parts src) src rank)

/-! ### d8.py -/

/-- Cell of an H x W raster. -/
abbrev Cell (H W : ℕ) := Fin H × Fin W

/-- Direction encodings accepted by build_downstream_index
(src/lperfect/d8.py).  The source raises on any other encoding string; that
fatal path is outside the claims and the inductive carries only the two
recognized tags. -/
inductive D8Encoding where
  | esri
  | cw0_7
deriving DecidableEq

/-- ESRI_OFFSETS of src/lperfect/d8.py: row/col offset for each power-of-two
code, none for unrecognized codes. -/
def esriOffset (code : ℤ) : Option (ℤ × ℤ) :=
  if code = 1 then some (0, 1)
  else if code = 2 then some (1, 1)
  else if code = 4 then some (1, 0)
  else if code = 8 then some (1, -1)
  else if code = 16 then some (0, -1)
  else if code = 32 then some (-1, -1)
  else if code = 64 then some (-1, 0)
  else if code = 128 then some (-1, 1)
  else none

/-- CW0_7_OFFSETS of src/lperfect/d8.py. -/
def cw07Offset (code : ℤ) : Option (ℤ × ℤ) :=
  if code = 0 then some (0, 1)
  else if code = 1 then some (1, 1)
  else if code = 2 then some (1, 0)
  else if code = 3 then some (1, -1)
  else if code = 4 then some (0, -1)
  else if code = 5 then some (-1, -1)
  else if code = 6 then some (-1, 0)
  else if code = 7 then some (-1, 1)
  else none

/-- Offset table selected by the encoding tag. -/
def offsetOf (enc : D8Encoding) (code : ℤ) : Option (ℤ × ℤ) :=
  match enc with
  | .esri => esriOffset code
  | .cw0_7 => cw07Offset code

/-- Embedding of build_downstream_index (src/lperfect/d8.py, lines 37-87).
The source returns three rasters (valid, ds_r, ds_c) where ds_r/ds_c hold a
-1 sentinel exactly where valid is false; the model fuses them into one
Option-valued downstream map: some neighbor where the code is recognized and
the neighbor is inside the grid, none otherwise (terminal cell). -/
def build_downstream_index {H W : ℕ} (d8 : Cell H W → ℤ) (enc : D8Encoding) :
    Cell H W → Option (Cell H W) :=
  fun v =>
    match offsetOf enc (d8 v) with
    | none => none
    | some (dr, dc) =>
      let r2 : ℤ := (v.1 : ℤ) + dr
      let c2 : ℤ := (v.2 : ℤ) + dc
      if h : 0 ≤ r2 ∧ r2 < H ∧ 0 ≤ c2 ∧ c2 < W then
        some (⟨r2.toNat, by omega⟩, ⟨c2.toNat, by omega⟩)
      else none

/-! ### risk.py : flow accumulation -/

/-- Scalar-or-raster cell area, as accepted by compute_flow_accum_area_m2 and
cell_area_at (np.isscalar branch). -/
inductive CellArea (α : Type) where
  | scalar (a : ℚ)
  | grid (a : α → ℚ)

/-- Area lookup: the scalar everywhere, or the raster entry. -/
def areaAt {α : Type} (ca : CellArea α) (v : α) : ℚ :=
  match ca with
  | .scalar a => a
  | .grid a => a v

/-- All cells of the raster in row-major order, the order produced by
np.nonzero. -/
def allCells (H W : ℕ) : List (Cell H W) :=
  (List.finRange H).flatMap (fun r => (List.finRange W).map (fun c => (r, c)))

/-- Initial accumulation raster of compute_flow_accum_area_m2 (risk.py,
lines 16-19): the cell area on active cells, zero elsewhere. -/
def flowInitAcc {H W : ℕ} (area : CellArea (Cell H W)) (active : Cell H W → Bool) :
    Cell H W → ℚ :=
  fun v => if active v then areaAt area v else 0

/-- The edge sources counted into the in-degree of v (risk.py, lines 23-26):
active cells whose valid downstream neighbor is v. -/
def flowPreds {H W : ℕ} (ds : Cell H W → Option (Cell H W))
    (active : Cell H W → Bool) (v : Cell H W) : Finset (Cell H W) :=
  Finset.univ.filter (fun x => active x = true ∧ ds x = some v)

/-- Initial in-degree raster (risk.py, lines 21-26), an int32 counter in the
source; decrements may drive it negative, hence the integer codomain. -/
def flowInitIndeg {H W : ℕ} (ds : Cell H W → Option (Cell H W))
    (active : Cell H W → Bool) : Cell H W → ℤ :=
  fun v => ((flowPreds ds active v).card : ℤ)

/-- State of the topological sweep: the accumulation raster, the in-degree
raster and the work stack. -/
structure SweepState (H W : ℕ) where
  acc : Cell H W → ℚ
  indeg : Cell H W → ℤ
  stack : List (Cell H W)

/-- Initial sweep state (risk.py, lines 28-30).  The seed cells are the
active cells with zero in-degree in row-major np.nonzero order; the python
list is popped from its end, which the model mirrors by reversing the seed
list and popping from the head. -/
def sweepInit {H W : ℕ} (ds : Cell H W → Option (Cell H W))
    (area : CellArea (Cell H W)) (active : Cell H W → Bool) : SweepState H W :=
  { acc := flowInitAcc area active
    indeg := flowInitIndeg ds active
    stack := ((allCells H W).filter
      (fun v => active v = true ∧ flowInitIndeg ds active v = 0)).reverse }

/-- One iteration of the while loop of compute_flow_accum_area_m2 (risk.py,
lines 32-45): pop a cell; skip it unless it is active with a valid in-bounds
downstream neighbor (the valid flag and the rd/cd >= 0 test of the source
are together exactly the some case of the downstream map); otherwise forward
its accumulated area downstream, decrement the downstream in-degree, and
push the downstream cell when that in-degree reaches zero and the cell is
active.  On an empty stack the state is unchanged. -/
def sweepStep {H W : ℕ} (ds : Cell H W → Option (Cell H W))
    (active : Cell H W → Bool) (s : SweepState H W) : SweepState H W :=
  match s.stack with
  | [] => s
  | v :: rest =>
    if active v = true then
      match ds v with
      | some d =>
        let acc2 := Function.update s.acc d (s.acc d + s.acc v)
        let indeg2 := Function.update s.indeg d (s.indeg d - 1)
        { acc := acc2
          indeg := indeg2
          stack := if indeg2 d = 0 ∧ active d = true then d :: rest else rest }
      | none => { s with stack := rest }
    else { s with stack := rest }

/-- Embedding of compute_flow_accum_area_m2 (src/lperfect/risk.py,
lines 11-47).  The while loop pops one cell per iteration and every cell is
pushed at most once (theorem flow_sweep_terminates below), so it performs at
most H * W iterations; iterating the loop body H * W times therefore
reproduces the loop exactly, and the extra iterations on an empty stack are
the identity. -/
def compute_flow_accum_area_m2 {H W : ℕ} (d8 : Cell H W → ℤ) (enc : D8Encoding)
    (area : CellArea (Cell H W)) (active : Cell H W → Bool) : Cell H W → ℚ :=
  let ds := build_downstream_index d8 enc
  (((sweepStep ds active)^[H * W]) (sweepInit ds area active)).acc

/-! ### risk.py : robust normalization -/

/-- Linear-interpolation percentile of a list of values, the default method
of np.nanpercentile: with the n values sorted ascending and
h = (n - 1) * q / 100, the result interpolates between the values at
positions floor h and floor h + 1.  The NaN entries that np.nanpercentile
ignores are already absent from the list (the caller passes only the masked
values); an empty list yields none, as np.nanpercentile of an all-NaN slice
is NaN. -/
def nanpercentile (vals : List ℚ) (q : ℚ) : Option ℚ :=
  if vals = [] then none
  else
    let s := vals.insertionSort (· ≤ ·)
    let n := s.length
    let h : ℚ := ((n : ℚ) - 1) * q / 100
    let i : ℕ := (⌊h⌋).toNat
    if i + 1 < n then some (s.getD i 0 + (h - ⌊h⌋) * (s.getD (i + 1) 0 - s.getD i 0))
    else some (s.getD (n - 1) 0)

/-- Embedding of robust_normalize (src/lperfect/risk.py, lines 50-58).
The masked array np.where(mask, a, NaN) is modelled by the list of values at
masked cells (row-major); NaN results off the mask are modelled by none.
If either percentile is NaN (empty mask) or hi <= lo, the result is 0 on the
mask; otherwise (x - lo)/(hi - lo) clipped to [0, 1]. -/
def robust_normalize {H W : ℕ} (a : Cell H W → ℚ) (mask : Cell H W → Bool)
    (p_low p_high : ℚ) : Cell H W → Option ℚ :=
  let vals := ((allCells H W).filter (fun v => mask v)).map a
  match nanpercentile vals p_low, nanpercentile vals p_high with
  | some lo, some hi =>
    if hi ≤ lo then fun v => if mask v then some 0 else none
    else fun v => if mask v then some (min (max ((a v - lo) / (hi - lo)) 0) 1) else none
  | _, _ => fun v => if mask v then some 0 else none

/-! ### hydraulics.py -/

/-- np.round semantics: round half to even (bankers rounding). -/
def roundHalfEven (q : ℚ) : ℤ :=
  let f := ⌊q⌋
  let d := q - (f : ℚ)
  if d < 1 / 2 then f
  else if (1 : ℚ) / 2 < d then f + 1
  else if f % 2 = 0 then f else f + 1

/-- Embedding of cell_area_at (src/lperfect/hydraulics.py, lines 16-20),
folded into the polymorphic area lookup: a scalar area is broadcast, a
raster area is indexed at the global cell. -/
def cell_area_at (ca : CellArea (ℕ × ℕ)) (v : ℕ × ℕ) : ℚ :=
  areaAt ca v

/-- Slab cells at which spawn_particles_from_runoff_slab emits particles
(src/lperfect/hydraulics.py, lines 31-43): cells of the local slab, in the
row-major order of np.nonzero, whose clamped depth is positive and whose
global row/column is active. -/
def spawnCells (h W : ℕ) (depth_raw : Cell h W → ℚ) (r0 : ℕ)
    (active_mask_global : ℕ × ℕ → Bool) : List (Cell h W) :=
  (allCells h W).filter
    (fun v => 0 < max (depth_raw v) 0 ∧ active_mask_global (r0 + v.1, v.2) = true)

/-- Spawned water volume of one emitting cell: clamped depth times area at
the global coordinates. -/
def spawnVol (W : ℕ) {h : ℕ} (depth_raw : Cell h W → ℚ) (r0 : ℕ)
    (cell_area_m2 : CellArea (ℕ × ℕ)) (v : Cell h W) : ℚ :=
  max (depth_raw v) 0 * cell_area_at cell_area_m2 (r0 + v.1, v.2)

/-- Particle count of one emitting cell:
n = max(1, round(V / particle_vol)) with np.round rounding half to even. -/
def spawnCount (W : ℕ) {h : ℕ} (depth_raw : Cell h W → ℚ) (r0 : ℕ)
    (cell_area_m2 : CellArea (ℕ × ℕ)) (particle_vol_m3 : ℚ) (v : Cell h W) : ℕ :=
  (max 1 (roundHalfEven (spawnVol W depth_raw r0 cell_area_m2 v / particle_vol_m3))).toNat

/-- Embedding of spawn_particles_from_runoff_slab (src/lperfect/hydraulics.py,
lines 23-56).  For every emitting cell, in row-major order, np.repeat emits
its n particles contiguously at the global coordinates, each carrying volume
V / n and tau = 0; the returned total is the sum of the cell volumes V over
the emitting cells.  The early returns of the source on an empty emitting
set coincide with the general path on an empty list. -/
def spawn_particles_from_runoff_slab (h W : ℕ) (depth_raw : Cell h W → ℚ)
    (r0 : ℕ) (cell_area_m2 : CellArea (ℕ × ℕ)) (particle_vol_m3 : ℚ)
    (active_mask_global : ℕ × ℕ → Bool) : List Particle × ℚ :=
  let cells := spawnCells h W depth_raw r0 active_mask_global
  (cells.flatMap (fun v =>
      List.replicate (spawnCount W depth_raw r0 cell_area_m2 particle_vol_m3 v)
        { r := ((r0 + v.1 : ℕ) : ℤ)
          c := ((v.2 : ℕ) : ℤ)
          vol := spawnVol W depth_raw r0 cell_area_m2 v /
            (spawnCount W depth_raw r0 cell_area_m2 particle_vol_m3 v : ℚ)
          tau := 0 }),
    (cells.map (fun v => spawnVol W depth_raw r0 cell_area_m2 v)).sum)

/-- The tau decrement applied to every particle at the top of
advect_particles_one_step (hydraulics.py, line 74). -/
def decTau (dt_s : ℚ) (p : Particle) : Particle :=
  { p with tau := p.tau - dt_s }

/-- Whether a (tau-decremented) particle is movable and stands on a cell with
a valid downstream neighbor (hydraulics.py, lines 76-85): the conjunction of
the can_move mask and the v mask of the source. -/
def advMoves (valid : ℤ → ℤ → Bool) (p : Particle) : Bool :=
  decide (p.tau ≤ 0) && valid p.r p.c

/-- Whether a (tau-decremented) particle is movable but terminal
(hydraulics.py, lines 101-103): the can_move mask conjoined with the
complement of the v mask; these are the candidates for the outflow sink. -/
def advTerminal (valid : ℤ → ℤ → Bool) (p : Particle) : Bool :=
  decide (p.tau ≤ 0) && !(valid p.r p.c)

/-- Per-particle effect of the move phase (hydraulics.py, lines 87-99) on a
tau-decremented particle: a movable particle with a valid downstream
neighbor hops there and receives the post-hop cooldown, chosen by the
optional channel mask at the destination; every other particle is
unchanged. -/
def advectOne (valid : ℤ → ℤ → Bool) (ds_r ds_c : ℤ → ℤ → ℤ)
    (travel_time_s travel_time_channel_s : ℚ) (channel_mask : Option (ℤ → ℤ → Bool))
    (p : Particle) : Particle :=
  if advMoves valid p then
    { p with
      r := ds_r p.r p.c
      c := ds_c p.r p.c
      tau := p.tau +
        match channel_mask with
        | some ch =>
          if ch (ds_r p.r p.c) (ds_c p.r p.c) then travel_time_channel_s
          else travel_time_s
        | none => travel_time_s }
  else p

/-- Embedding of advect_particles_one_step (src/lperfect/hydraulics.py,
lines 59-114), returning (container, outflow volume, hop count).  The tau
decrement is applied to every particle; movable particles with a downstream
neighbor hop once; when outflow_sink is set, the movable terminal particles
are removed (numpy keep-mask filtering, which preserves order) and their
volume is summed into the outflow, otherwise they stay in place.  The early
returns of the source (empty container, no movable particle) agree with the
general path and are elided. -/
def advect_particles_one_step (particles : List Particle)
    (valid : ℤ → ℤ → Bool) (ds_r ds_c : ℤ → ℤ → ℤ) (dt_s : ℚ)
    (travel_time_s travel_time_channel_s : ℚ)
    (channel_mask : Option (ℤ → ℤ → Bool)) (outflow_sink : Bool) :
    List Particle × ℚ × ℕ :=
  let ps1 := particles.map (decTau dt_s)
  let kept := if outflow_sink then ps1.filter (fun p => !(advTerminal valid p)) else ps1
  (kept.map (advectOne valid ds_r ds_c travel_time_s travel_time_channel_s channel_mask),
   if outflow_sink then ((ps1.filter (advTerminal valid)).map Particle.vol).sum else 0,
   ps1.countP (advMoves valid))

/-! ### Helper lemmas: SCS-CN runoff -/

/-- The per-cell runoff is never negative. -/
lemma scsCell_nonneg (P CN ia : ℚ) : 0 ≤ scsCell P CN ia := by
  unfold scsCell
  split
  · split
    · next h =>
      exact div_nonneg (sq_nonneg _) (by linarith [h.1, h.2])
    · exact le_refl 0
  · exact le_refl 0

/-- The per-cell runoff never exceeds a non-negative cumulative
precipitation, provided the abstraction ratio is non-negative. -/
lemma scsCell_le_P (P CN ia : ℚ) (hia : 0 ≤ ia) (hP : 0 ≤ P) :
    scsCell P CN ia ≤ P := by
  unfold scsCell
  split
  · split
    · next h =>
      set S := 25400 / CN - 254 with hS
      have hSpos : 0 < S := h.2
      have hIa : 0 ≤ ia * S := mul_nonneg hia hSpos.le
      have hu : 0 < P - ia * S := by linarith [h.1]
      have hden : 0 < P - ia * S + S := by linarith
      rw [div_le_iff₀ hden]
      nlinarith
    · exact hP
  · exact hP

/-- The per-cell runoff is monotone in cumulative precipitation. -/
lemma scsCell_mono (P P2 CN ia : ℚ) (h : P ≤ P2) :
    scsCell P CN ia ≤ scsCell P2 CN ia := by
  have h2 := scsCell_nonneg P2 CN ia
  by_cases hok : 0 < CN ∧ CN ≤ 100
  · by_cases hc : ia * (25400 / CN - 254) < P ∧ 0 < 25400 / CN - 254
    · have hc2 : ia * (25400 / CN - 254) < P2 ∧ 0 < 25400 / CN - 254 :=
        ⟨lt_of_lt_of_le hc.1 h, hc.2⟩
      unfold scsCell
      rw [if_pos hok, if_pos hok, if_pos hc, if_pos hc2]
      set S := 25400 / CN - 254 with hSdef
      set Ia := ia * S with hIadef
      have hu : 0 < P - Ia := by linarith [hc.1]
      have hu2 : 0 < P2 - Ia := by linarith
      have hS : 0 < S := hc.2
      have huw : P - Ia ≤ P2 - Ia := by linarith
      rw [div_le_div_iff₀ (by linarith) (by linarith)]
      nlinarith [mul_nonneg (mul_nonneg hu.le hu2.le) (sub_nonneg.mpr huw),
        mul_nonneg (mul_nonneg (sub_nonneg.mpr huw) hS.le)
          (by linarith : (0 : ℚ) ≤ (P - Ia) + (P2 - Ia))]
    · have : scsCell P CN ia = 0 := by
        unfold scsCell
        rw [if_pos hok, if_neg hc]
      rw [this]
      exact h2
  · have : scsCell P CN ia = 0 := by
      unfold scsCell
      rw [if_neg hok]
    rw [this]
    exact h2

section ClaimsRunoff

/-- Claim C1 (counterexample): with cumulative precipitation P = 50 mm,
curve number CN = 100 and ia_ratio = 1/5, the code returns Q = 0, while the
formula of the claim, with S = 25400/100 - 254 = 0 and Ia = 0, gives
(P - Ia)^2 / (P - Ia + S) = 50.  The claimed extension of the formula to
CN = 100 therefore fails: the source only applies the formula where S > 0. -/
theorem scs_cn_at_cn100_counterexample :
    scs_cn_cumulative_runoff_mm (fun _ : Unit => 50) (fun _ => 100) (1 / 5) () = 0 ∧
    ((50 : ℚ) - (1 / 5) * (25400 / 100 - 254)) ^ 2 /
      (50 - (1 / 5) * (25400 / 100 - 254) + (25400 / 100 - 254)) = 50 ∧
    (0 : ℚ) ≠ 50 := by
  refine ⟨?_, ?_, ?_⟩ <;> with_unfolding_all decide

/-- Claim C1 (amended): for a cell with curve number CN in (0, 100) and
finite non-negative cumulative precipitation P, the code returns Q = 0 when
P <= Ia and Q = (P - Ia)^2 / (P - Ia + S) when P > Ia, with
S = 25400/CN - 254 and Ia = ia_ratio * S; at CN = 100 (where S = 0) the code
returns Q = 0 unconditionally, because the runoff branch additionally
requires S > 0. -/
theorem scs_cn_formula_amended {α : Type} (P CN : α → ℚ) (ia_ratio : ℚ) (i : α)
    (h0 : 0 < CN i) (h1 : CN i ≤ 100) (hP : 0 ≤ P i) :
    (CN i < 100 →
      (P i ≤ ia_ratio * (25400 / CN i - 254) →
        scs_cn_cumulative_runoff_mm P CN ia_ratio i = 0) ∧
      (ia_ratio * (25400 / CN i - 254) < P i →
        scs_cn_cumulative_runoff_mm P CN ia_ratio i =
          (P i - ia_ratio * (25400 / CN i - 254)) ^ 2 /
            (P i - ia_ratio * (25400 / CN i - 254) + (25400 / CN i - 254)))) ∧
    (CN i = 100 → scs_cn_cumulative_runoff_mm P CN ia_ratio i = 0) := by
  unfold scs_cn_cumulative_runoff_mm scsCell
  rw [if_pos ⟨h0, h1⟩]
  constructor
  · intro hlt
    have hS : 0 < 25400 / CN i - 254 := by
      have h100 : (254 : ℚ) < 25400 / CN i := by
        rw [lt_div_iff₀ h0]
        nlinarith
      linarith
    constructor
    · intro hle
      rw [if_neg]
      rintro ⟨hgt, -⟩
      exact absurd hle (not_le.mpr hgt)
    · intro hgt
      rw [if_pos ⟨hgt, hS⟩]
  · intro h100
    rw [if_neg]
    rintro ⟨-, hS⟩
    rw [h100] at hS
    norm_num at hS

/-- Witness for scs_cn_formula_amended at the reference point P = 50 mm,
CN = 80, ia_ratio = 1/5 (spec scenario S3). -/
theorem scs_cn_formula_amended_witness :
    ((0 : ℚ) < 80 ∧ (80 : ℚ) ≤ 100 ∧ (0 : ℚ) ≤ 50 ∧ (80 : ℚ) < 100 ∧
      (1 / 5 : ℚ) * (25400 / 80 - 254) < 50) ∧
    scs_cn_cumulative_runoff_mm (fun _ : Unit => (50 : ℚ)) (fun _ => 80) (1 / 5) () =
      ((50 : ℚ) - (1 / 5) * (25400 / 80 - 254)) ^ 2 /
        (50 - (1 / 5) * (25400 / 80 - 254) + (25400 / 80 - 254)) := by
  have h : ((0 : ℚ) < 80 ∧ (80 : ℚ) ≤ 100 ∧ (0 : ℚ) ≤ 50 ∧ (80 : ℚ) < 100 ∧
      (1 / 5 : ℚ) * (25400 / 80 - 254) < 50) := by norm_num
  exact ⟨h, ((scs_cn_formula_amended (fun _ : Unit => (50 : ℚ)) (fun _ => 80) (1 / 5) ()
    h.1 h.2.1 h.2.2.1).1 h.2.2.2.1).2 h.2.2.2.2⟩

/-- Claim C7: for a non-negative abstraction ratio and non-negative
cumulative precipitation, the cumulative runoff of scs_cn_cumulative_runoff_mm
satisfies 0 <= Q <= P at every cell, for every curve-number raster, and is
monotone in the cumulative precipitation at fixed CN and ia_ratio. -/
theorem scs_runoff_bounds_monotone {α : Type} (P P2 CN : α → ℚ) (ia_ratio : ℚ)
    (i : α) (hia : 0 ≤ ia_ratio) (hP0 : 0 ≤ P i) (hPP : P i ≤ P2 i) :
    0 ≤ scs_cn_cumulative_runoff_mm P CN ia_ratio i ∧
    scs_cn_cumulative_runoff_mm P CN ia_ratio i ≤ P i ∧
    scs_cn_cumulative_runoff_mm P CN ia_ratio i ≤
      scs_cn_cumulative_runoff_mm P2 CN ia_ratio i :=
  ⟨scsCell_nonneg _ _ _, scsCell_le_P _ _ _ hia hP0, scsCell_mono _ _ _ _ hPP⟩

/-- Witness for scs_runoff_bounds_monotone at P = 50, P2 = 60, CN = 80,
ia_ratio = 1/5. -/
theorem scs_runoff_bounds_monotone_witness :
    ((0 : ℚ) ≤ 1 / 5 ∧ (0 : ℚ) ≤ 50 ∧ (50 : ℚ) ≤ 60) ∧
    (0 ≤ scs_cn_cumulative_runoff_mm (fun _ : Unit => (50 : ℚ)) (fun _ => 80) (1 / 5) () ∧
      scs_cn_cumulative_runoff_mm (fun _ : Unit => (50 : ℚ)) (fun _ => 80) (1 / 5) () ≤ 50 ∧
      scs_cn_cumulative_runoff_mm (fun _ : Unit => (50 : ℚ)) (fun _ => 80) (1 / 5) () ≤
        scs_cn_cumulative_runoff_mm (fun _ : Unit => (60 : ℚ)) (fun _ => 80) (1 / 5) ()) :=
  ⟨⟨by norm_num, by norm_num, by norm_num⟩,
    scs_runoff_bounds_monotone (fun _ : Unit => (50 : ℚ)) (fun _ => (60 : ℚ))
      (fun _ => 80) (1 / 5) () (by norm_num) (by norm_num) (by norm_num)⟩

end ClaimsRunoff

section ClaimsNormalize

/-- Claim C2 (counterexample): on the field {10, 20, ..., 100} over ten
active cells with p_low = 10 and p_high = 90, robust_normalize does not
return 0 at the cell with value 20.  np.nanpercentile interpolates linearly,
so lo = 19 and hi = 91, and the cell with value 20 maps to
(20 - 19) / (91 - 19) = 1/72. -/
theorem robust_normalize_percentile_counterexample :
    ¬ (robust_normalize (fun v : Cell 1 10 => 10 * ((v.2 : ℕ) + 1))
        (fun _ => true) 10 90 (0, 1) = some 0) := by
  with_unfolding_all decide

/-- Claim C2 (amended): on the field {10, 20, ..., 100} over ten active
cells with p_low = 10 and p_high = 90, the linearly interpolated percentiles
are lo = 19 and hi = 91, so robust_normalize returns 1/72 (not 0) at the
cell with value 20 and 71/72 (not 1) at the cell with value 90; values
outside [lo, hi] are clamped to [0, 1]: the cell with value 10 maps to 0 and
the cell with value 100 maps to 1. -/
theorem robust_normalize_decile_values :
    robust_normalize (fun v : Cell 1 10 => 10 * ((v.2 : ℕ) + 1))
        (fun _ => true) 10 90 (0, 1) = some (1 / 72) ∧
    robust_normalize (fun v : Cell 1 10 => 10 * ((v.2 : ℕ) + 1))
        (fun _ => true) 10 90 (0, 8) = some (71 / 72) ∧
    robust_normalize (fun v : Cell 1 10 => 10 * ((v.2 : ℕ) + 1))
        (fun _ => true) 10 90 (0, 0) = some 0 ∧
    robust_normalize (fun v : Cell 1 10 => 10 * ((v.2 : ℕ) + 1))
        (fun _ => true) 10 90 (0, 9) = some 1 := by
  refine ⟨?_, ?_, ?_, ?_⟩ <;> with_unfolding_all decide

end ClaimsNormalize

/-! ### Helper lemmas: slab decomposition -/

/-- Closed form of the prefix sums of the slab counts. -/
lemma slab_starts_closed (H N i : ℕ) :
    slab_starts H N i = i * (H / N) + min i (H % N) := by
  induction i with
  | zero => simp [slab_starts]
  | succ k ih =>
    rw [slab_starts, Finset.sum_range_succ, ← slab_starts, ih, slab_counts]
    by_cases hk : k < H % N
    · rw [if_pos hk]
      have : min k (H % N) = k := min_eq_left hk.le
      have h2 : min (k + 1) (H % N) = k + 1 := min_eq_left hk
      rw [this, h2]
      ring
    · rw [if_neg hk]
      push_neg at hk
      have : min k (H % N) = H % N := min_eq_right hk
      have h2 : min (k + 1) (H % N) = H % N := min_eq_right (by omega)
      rw [this, h2]
      ring

/-- The starts are monotone in the rank. -/
lemma slab_starts_mono (H N : ℕ) {i j : ℕ} (h : i ≤ j) :
    slab_starts H N i ≤ slab_starts H N j := by
  rw [slab_starts_closed, slab_starts_closed]
  have : min i (H % N) ≤ min j (H % N) := min_le_min_right _ h
  have : i * (H / N) ≤ j * (H / N) := Nat.mul_le_mul_right _ h
  omega

/-- The last end equals the grid height: the slabs exhaust [0, H). -/
lemma slab_starts_total (H N : ℕ) (hN : 1 ≤ N) : slab_starts H N N = H := by
  rw [slab_starts_closed]
  have hmod : H % N < N := Nat.mod_lt _ hN
  have := Nat.div_add_mod H N
  have : min N (H % N) = H % N := min_eq_right hmod.le
  omega

/-- Successive starts differ by the count. -/
lemma slab_ends_eq_starts_succ (H N i : ℕ) :
    slab_ends H N i = slab_starts H N (i + 1) := by
  simp [slab_ends, slab_starts, Finset.sum_range_succ]

/-- Filtering the range below N by membership below k (with k <= N) yields
the range below k. -/
lemma filter_range_lt (N k : ℕ) (hk : k ≤ N) :
    (List.range N).filter (fun i => decide (i < k)) = List.range k := by
  induction N with
  | zero =>
    have : k = 0 := Nat.le_zero.mp hk
    simp [this]
  | succ n ih =>
    rw [List.range_succ, List.filter_append]
    by_cases h : k ≤ n
    · rw [ih h]
      have : ¬ n < k := by omega
      simp [this]
    · have hkn : k = n + 1 := by omega
      subst hkn
      rw [List.filter_eq_self.mpr]
      · simp [List.range_succ]
      · intro a ha
        simp only [List.mem_range] at ha
        simp [Nat.lt_succ_of_lt ha]

/-- Inside its own slab range, a row is assigned its own rank by
rank_of_row. -/
lemma rank_of_row_of_mem (H N k : ℕ) (r : ℤ) (hk : k < N)
    (h1 : (slab_starts H N k : ℤ) ≤ r) (h2 : r < (slab_ends H N k : ℤ)) :
    rank_of_row r H N = k := by
  unfold rank_of_row
  rw [List.countP_eq_length_filter]
  have hfe : (List.range N).filter (fun i => decide ((slab_ends H N i : ℤ) ≤ r)) =
      (List.range N).filter (fun i => decide (i < k)) := by
    apply List.filter_congr
    intro i hi
    simp only [decide_eq_decide]
    constructor
    · intro hle
      by_contra hik
      push_neg at hik
      have : (slab_ends H N k : ℤ) ≤ (slab_ends H N i : ℤ) := by
        have := slab_starts_mono H N (Nat.succ_le_succ hik)
        rw [slab_ends_eq_starts_succ, slab_ends_eq_starts_succ]
        exact_mod_cast this
      omega
    · intro hik
      have : (slab_ends H N i : ℤ) ≤ (slab_starts H N k : ℤ) := by
        have := slab_starts_mono H N (Nat.succ_le_of_lt hik)
        rw [slab_ends_eq_starts_succ]
        exact_mod_cast this
      omega
  rw [hfe, filter_range_lt N k hk.le, List.length_range]

/-- The ends are monotone in the rank. -/
lemma slab_ends_mono (H N : ℕ) {i j : ℕ} (h : i ≤ j) :
    slab_ends H N i ≤ slab_ends H N j := by
  rw [slab_ends_eq_starts_succ, slab_ends_eq_starts_succ]
  exact slab_starts_mono H N (Nat.succ_le_succ h)

/-- Every row of [0, H) is assigned a rank below N whose slab range contains
it. -/
lemma rank_of_row_cover (H N : ℕ) (hN : 1 ≤ N) (r : ℤ) (h0 : 0 ≤ r)
    (hr : r < (H : ℤ)) :
    rank_of_row r H N < N ∧
    (slab_starts H N (rank_of_row r H N) : ℤ) ≤ r ∧
    r < (slab_ends H N (rank_of_row r H N) : ℤ) := by
  set p : ℕ → Bool := fun i => decide ((slab_ends H N i : ℤ) ≤ r) with hp
  set k := rank_of_row r H N with hk
  have hkcount : k = (List.range N).countP p := rfl
  have hkN : k < N := by
    rcases Nat.lt_or_ge k N with h | h
    · exact h
    · exfalso
      have hlen : (List.range N).countP p = N := by
        have hle : (List.range N).countP p ≤ N := by
          have := List.countP_le_length p (l := List.range N)
          simpa using this
        omega
      have hall := (List.countP_eq_length (p := p) (l := List.range N)).mp
        (by simpa using hlen)
      have hm : (N - 1) ∈ List.range N := List.mem_range.mpr (by omega)
      have := hall _ hm
      rw [hp] at this
      simp only [decide_eq_true_eq] at this
      have hend : slab_ends H N (N - 1) = H := by
        rw [slab_ends_eq_starts_succ]
        have : N - 1 + 1 = N := by omega
        rw [this, slab_starts_total H N hN]
      rw [hend] at this
      omega
  refine ⟨hkN, ?_, ?_⟩
  · rcases Nat.eq_zero_or_pos k with h | h
    · rw [h]
      simp [slab_starts]
      exact h0
    · by_contra hcon
      push_neg at hcon
      have hnp : ∀ i ∈ List.range N, p i = true → decide (i < k - 1) = true := by
        intro i _ hpi
        rw [hp] at hpi
        simp only [decide_eq_true_eq] at hpi ⊢
        by_contra hik
        push_neg at hik
        have hmono : (slab_ends H N (k - 1) : ℤ) ≤ (slab_ends H N i : ℤ) :=
          Int.ofNat_le.mpr (slab_ends_mono H N (by omega))
        have hse : (slab_starts H N k : ℤ) ≤ (slab_ends H N (k - 1) : ℤ) := by
          rw [slab_ends_eq_starts_succ]
          have : k - 1 + 1 = k := by omega
          rw [this]
      -- starts k <= ends (k-1) with equality; close by omega below
        omega
      have hcle := List.countP_mono_left hnp
      rw [← hkcount] at hcle
      rw [List.countP_eq_length_filter, filter_range_lt N (k - 1) (by omega),
        List.length_range] at hcle
      omega
  · by_contra hcon
    push_neg at hcon
    have hsub : (List.range (k + 1)).Sublist (List.range N) :=
      List.range_sublist.mpr (by omega)
    have hall : (List.range (k + 1)).countP p = k + 1 := by
      rw [List.countP_eq_length (p := p) (l := List.range (k + 1)) |>.mpr]
      · exact List.length_range (k + 1)
      · intro i hi
        rw [List.mem_range] at hi
        rw [hp]
        simp only [decide_eq_true_eq]
        calc (slab_ends H N i : ℤ) ≤ (slab_ends H N k : ℤ) :=
              Int.ofNat_le.mpr (slab_ends_mono H N (by omega))
          _ ≤ r := hcon
    have := List.Sublist.countP_le p hsub
    rw [hall, ← hkcount] at this
    omega

/-- When N does not divide H, the ceiling of H / N is H / N + 1, written
with natural-number arithmetic as (H + N - 1) / N. -/
lemma slab_ceil_aux (H N : ℕ) (hN : 0 < N) (hm : 0 < H % N) :
    (H + N - 1) / N = H / N + 1 := by
  have hq := Nat.div_add_mod H N
  have expand1 : (H / N + 1) * N = N * (H / N) + N := by ring
  have expand2 : (H / N + 1 + 1) * N = N * (H / N) + N + N := by ring
  have hmlt : H % N < N := Nat.mod_lt _ hN
  apply Nat.div_eq_of_lt_le
  · rw [expand1]
    omega
  · rw [expand2]
    omega

section ClaimsSlab

/-- Claim C3: for every grid height H >= 1 and worker count N >= 1, the slab
decomposition gives the first H mod N ranks the ceiling of H / N rows and
every other rank the floor; the half-open ranges of slab_bounds are ordered
and pairwise disjoint with union [0, H); and for every row r in [0, H),
rank_of_row returns exactly the rank whose slab range contains r. -/
theorem slab_decomposition_partition (H N : ℕ) (hH : 1 ≤ H) (hN : 1 ≤ N) :
    (∀ i, i < H % N → slab_counts H N i = (H + N - 1) / N) ∧
    (∀ i, H % N ≤ i → slab_counts H N i = H / N) ∧
    (∀ k l r : ℕ, k < N → l < N → k ≠ l →
      ¬((slab_bounds H N k).1 ≤ r ∧ r < (slab_bounds H N k).2 ∧
        (slab_bounds H N l).1 ≤ r ∧ r < (slab_bounds H N l).2)) ∧
    (∀ r : ℕ, r < H ↔ ∃ k, k < N ∧ (slab_bounds H N k).1 ≤ r ∧
      r < (slab_bounds H N k).2) ∧
    (∀ r k : ℕ, r < H → k < N →
      (rank_of_row (r : ℤ) H N = k ↔
        (slab_bounds H N k).1 ≤ r ∧ r < (slab_bounds H N k).2)) := by
  have hbounds1 : ∀ k, (slab_bounds H N k).1 = slab_starts H N k := fun _ => rfl
  have hbounds2 : ∀ k, (slab_bounds H N k).2 = slab_ends H N k := fun _ => rfl
  have hdisj : ∀ k l r : ℕ, k < l →
      ¬(slab_starts H N k ≤ r ∧ r < slab_ends H N k ∧
        slab_starts H N l ≤ r ∧ r < slab_ends H N l) := by
    rintro k l r hkl ⟨-, h2, h3, -⟩
    have : slab_ends H N k ≤ slab_starts H N l := by
      rw [slab_ends_eq_starts_succ]
      exact slab_starts_mono H N hkl
    omega
  refine ⟨?_, ?_, ?_, ?_, ?_⟩
  · intro i hi
    rw [slab_counts, if_pos hi, slab_ceil_aux H N hN (by omega)]
  · intro i hi
    rw [slab_counts, if_neg (by omega)]
    omega
  · intro k l r hk hl hne hcon
    rw [hbounds1, hbounds2, hbounds1, hbounds2] at hcon
    rcases Nat.lt_or_ge k l with h | h
    · exact hdisj k l r h ⟨hcon.1, hcon.2.1, hcon.2.2.1, hcon.2.2.2⟩
    · have hlk : l < k := by omega
      exact hdisj l k r hlk ⟨hcon.2.2.1, hcon.2.2.2, hcon.1, hcon.2.1⟩
  · intro r
    constructor
    · intro hr
      have hcov := rank_of_row_cover H N hN (r : ℤ) (by positivity)
        (by exact_mod_cast hr)
      refine ⟨rank_of_row (r : ℤ) H N, hcov.1, ?_, ?_⟩
      · rw [hbounds1]
        exact_mod_cast hcov.2.1
      · rw [hbounds2]
        exact_mod_cast hcov.2.2
    · rintro ⟨k, hk, -, h2⟩
      rw [hbounds2] at h2
      have : slab_ends H N k ≤ slab_ends H N (N - 1) :=
        slab_ends_mono H N (by omega)
      have hend : slab_ends H N (N - 1) = H := by
        rw [slab_ends_eq_starts_succ]
        have heq : N - 1 + 1 = N := by omega
        rw [heq, slab_starts_total H N hN]
      omega
  · intro r k hr hk
    have hcov := rank_of_row_cover H N hN (r : ℤ) (by positivity)
      (by exact_mod_cast hr)
    constructor
    · intro heq
      rw [hbounds1, hbounds2, ← heq]
      constructor
      · exact_mod_cast hcov.2.1
      · exact_mod_cast hcov.2.2
    · intro hmem
      rw [hbounds1, hbounds2] at hmem
      by_contra hne
      have hmem2 : slab_starts H N (rank_of_row (r : ℤ) H N) ≤ r ∧
          r < slab_ends H N (rank_of_row (r : ℤ) H N) := by
        constructor
        · exact_mod_cast hcov.2.1
        · exact_mod_cast hcov.2.2
      rcases Nat.lt_or_ge (rank_of_row (r : ℤ) H N) k with h | h
      · exact hdisj _ k r h ⟨hmem2.1, hmem2.2, hmem.1, hmem.2⟩
      · have hlt : k < rank_of_row (r : ℤ) H N := by omega
        exact hdisj k _ r hlt ⟨hmem.1, hmem.2, hmem2.1, hmem2.2⟩

/-- Witness for slab_decomposition_partition at H = 10, N = 4 (slab ranges
[0,3), [3,6), [6,8), [8,10)): row 5 is owned by rank 1. -/
theorem slab_decomposition_partition_witness :
    ((1 : ℕ) ≤ 10 ∧ (1 : ℕ) ≤ 4 ∧ (5 : ℕ) < 10 ∧ (1 : ℕ) < 4) ∧
    rank_of_row (5 : ℤ) 10 4 = 1 :=
  ⟨by norm_num,
    ((slab_decomposition_partition 10 4 (by norm_num) (by norm_num)).2.2.2.2 5 1
      (by norm_num) (by norm_num)).mpr (by decide)⟩

/-- Claim C10: for any row index r >= H, rank_of_row returns N, which is not
a valid rank; consequently a particle whose row is >= H is neither kept
locally by migrate_particles_slab nor placed in any send buffer of any
source rank, so it silently vanishes from every receiving rank (and
migrate_particles_slab credits no outflow accumulator at all). -/
theorem rank_of_row_out_of_range_discard (H N : ℕ) (r : ℤ)
    (parts : ℕ → List Particle) (rank : ℕ) (p : Particle) (hN : 1 ≤ N) :
    ((H : ℤ) ≤ r → rank_of_row r H N = N) ∧
    (rank < N → (H : ℤ) ≤ p.r → p ∉ migrate_particles_slab parts H N rank) := by
  have hout : ∀ q : ℤ, (H : ℤ) ≤ q → rank_of_row q H N = N := by
    intro q hq
    unfold rank_of_row
    rw [List.countP_eq_length.mpr, List.length_range]
    intro i hi
    rw [List.mem_range] at hi
    simp only [decide_eq_true_eq]
    have h1 : slab_ends H N i ≤ slab_starts H N N := by
      rw [slab_ends_eq_starts_succ]
      exact slab_starts_mono H N hi
    rw [slab_starts_total H N hN] at h1
    omega
  refine ⟨hout r, ?_⟩
  intro hrank hp hmem
  have hdest : migrate_dest H N p = N := hout p.r hp
  rw [migrate_particles_slab, List.mem_append] at hmem
  rcases hmem with hmem | hmem
  · rw [migrate_keep, List.mem_filter] at hmem
    have := hmem.2
    simp only [decide_eq_true_eq] at this
    omega
  · rw [List.mem_flatMap] at hmem
    obtain ⟨src, -, hmem2⟩ := hmem
    rw [migrate_send] at hmem2
    split at hmem2
    · exact absurd hmem2 (List.not_mem_nil p)
    · rw [List.mem_filter] at hmem2
      have := hmem2.2
      simp only [decide_eq_true_eq] at this
      rw [migrate_dest] at hdest
      rw [migrate_dest] at this
      omega

/-- Witness for rank_of_row_out_of_range_discard: with H = 4 and N = 2, a
particle at row 7 maps to rank 2 (invalid) and is dropped from the output of
rank 0. -/
theorem rank_of_row_out_of_range_discard_witness :
    ((1 : ℕ) ≤ 2 ∧ (0 : ℕ) < 2 ∧ (4 : ℤ) ≤ 7) ∧
    rank_of_row 7 4 2 = 2 ∧
    ({ r := 7, c := 0, vol := 1, tau := 0 } : Particle) ∉
      migrate_particles_slab
        (fun _ => [{ r := 7, c := 0, vol := 1, tau := 0 }]) 4 2 0 :=
  ⟨by norm_num,
    (rank_of_row_out_of_range_discard 4 2 7
      (fun _ => [{ r := 7, c := 0, vol := 1, tau := 0 }]) 0
      { r := 7, c := 0, vol := 1, tau := 0 } (by norm_num)).1 (by norm_num),
    (rank_of_row_out_of_range_discard 4 2 7
      (fun _ => [{ r := 7, c := 0, vol := 1, tau := 0 }]) 0
      { r := 7, c := 0, vol := 1, tau := 0 } (by norm_num)).2 (by norm_num)
      (by decide)⟩

end ClaimsSlab

/-! ### Helper lemmas: advection -/

/-- The tau decrement leaves the volume untouched. -/
lemma decTau_vol (dt : ℚ) (p : Particle) : (decTau dt p).vol = p.vol := rfl

/-- The tau decrement leaves row and column untouched. -/
lemma decTau_r (dt : ℚ) (p : Particle) : (decTau dt p).r = p.r := rfl

lemma decTau_c (dt : ℚ) (p : Particle) : (decTau dt p).c = p.c := rfl

/-- A single hop leaves the volume untouched. -/
lemma advectOne_vol (valid : ℤ → ℤ → Bool) (ds_r ds_c : ℤ → ℤ → ℤ)
    (tt ttc : ℚ) (ch : Option (ℤ → ℤ → Bool)) (p : Particle) :
    (advectOne valid ds_r ds_c tt ttc ch p).vol = p.vol := by
  unfold advectOne
  split <;> rfl

/-- A movable terminal particle is unchanged by the hop map: its valid flag
is false, so the move mask is false. -/
lemma advectOne_of_terminal (valid : ℤ → ℤ → Bool) (ds_r ds_c : ℤ → ℤ → ℤ)
    (tt ttc : ℚ) (ch : Option (ℤ → ℤ → Bool)) (p : Particle)
    (h : advTerminal valid p = true) :
    advectOne valid ds_r ds_c tt ttc ch p = p := by
  unfold advectOne
  rw [if_neg]
  unfold advMoves
  unfold advTerminal at h
  simp only [Bool.and_eq_true, Bool.not_eq_true'] at h ⊢
  rintro ⟨-, hv⟩
  rw [h.2] at hv
  exact Bool.false_ne_true hv

/-- Splitting a sum of values over a boolean mask and its complement. -/
lemma sum_map_filter_not_add {α : Type} (l : List α) (p : α → Bool) (f : α → ℚ) :
    (((l.filter (fun a => !(p a))).map f).sum + ((l.filter p).map f).sum =
      (l.map f).sum) := by
  induction l with
  | nil => simp
  | cons a t ih =>
    by_cases h : p a <;> simp [List.filter_cons, h] <;> linarith [ih]

section ClaimsAdvect

/-- Claim C9: advect_particles_one_step conserves volume exactly in exact
arithmetic: the volumes of the returned container sum, together with the
returned outflow volume, to the volume sum of the input container; and the
returned volume list is a sublist of the input volume list, so no individual
particle volume is altered by advection — particles only move or are
removed. -/
theorem advect_conserves_volume (ps : List Particle) (valid : ℤ → ℤ → Bool)
    (ds_r ds_c : ℤ → ℤ → ℤ) (dt tt ttc : ℚ) (ch : Option (ℤ → ℤ → Bool))
    (sink : Bool) :
    ((advect_particles_one_step ps valid ds_r ds_c dt tt ttc ch sink).1.map
        Particle.vol).sum +
      (advect_particles_one_step ps valid ds_r ds_c dt tt ttc ch sink).2.1 =
      (ps.map Particle.vol).sum ∧
    ((advect_particles_one_step ps valid ds_r ds_c dt tt ttc ch sink).1.map
      Particle.vol).Sublist (ps.map Particle.vol) := by
  have hvol : ∀ l : List Particle,
      ((l.map (advectOne valid ds_r ds_c tt ttc ch)).map Particle.vol) =
        l.map Particle.vol := by
    intro l
    rw [List.map_map]
    apply List.map_congr_left
    intro p _
    exact advectOne_vol valid ds_r ds_c tt ttc ch p
  have hps1 : (ps.map (decTau dt)).map Particle.vol = ps.map Particle.vol := by
    rw [List.map_map]
    apply List.map_congr_left
    intro p _
    exact decTau_vol dt p
  cases sink with
  | false =>
    constructor
    · simp only [advect_particles_one_step, if_neg (Bool.false_ne_true)]
      rw [hvol, hps1, add_zero]
    · simp only [advect_particles_one_step, if_neg (Bool.false_ne_true)]
      rw [hvol, hps1]
  | true =>
    constructor
    · simp only [advect_particles_one_step, if_pos rfl]
      rw [hvol]
      have := sum_map_filter_not_add (ps.map (decTau dt)) (advTerminal valid)
        Particle.vol
      rw [hps1] at this
      exact this
    · simp only [advect_particles_one_step, if_pos rfl]
      rw [hvol]
      have h1 : (((ps.map (decTau dt)).filter (fun p => !(advTerminal valid p))).map
          Particle.vol).Sublist ((ps.map (decTau dt)).map Particle.vol) :=
        (List.filter_sublist _).map Particle.vol
      rw [hps1] at h1
      exact h1

/-- Claim C5: in advect_particles_one_step, the movable terminal particles
(tau <= 0 after the dt decrement, standing on a cell without a valid
downstream neighbor) are, with outflow_sink = true, removed from the
returned container — its length shrinks by their count — and their volume
sum is the returned outflow; with outflow_sink = false the outflow is 0, the
container keeps its length, and each movable terminal particle is returned
unchanged at its position: same cell, tau equal to the decremented value,
which is still <= 0, so it is movable again next step. -/
theorem advect_terminal_particles (ps : List Particle) (valid : ℤ → ℤ → Bool)
    (ds_r ds_c : ℤ → ℤ → ℤ) (dt tt ttc : ℚ) (ch : Option (ℤ → ℤ → Bool)) :
    ((advect_particles_one_step ps valid ds_r ds_c dt tt ttc ch true).2.1 =
      (((ps.map (decTau dt)).filter (advTerminal valid)).map Particle.vol).sum ∧
     (advect_particles_one_step ps valid ds_r ds_c dt tt ttc ch true).1.length =
      ps.length - (ps.map (decTau dt)).countP (advTerminal valid)) ∧
    ((advect_particles_one_step ps valid ds_r ds_c dt tt ttc ch false).2.1 = 0 ∧
     (advect_particles_one_step ps valid ds_r ds_c dt tt ttc ch false).1.length =
      ps.length ∧
     ∀ i : ℕ, ∀ q0 : Particle, ps[i]? = some q0 →
       advTerminal valid (decTau dt q0) = true →
         (advect_particles_one_step ps valid ds_r ds_c dt tt ttc ch false).1[i]? =
             some (decTau dt q0) ∧
           (decTau dt q0).r = q0.r ∧ (decTau dt q0).c = q0.c ∧
           (decTau dt q0).vol = q0.vol ∧ (decTau dt q0).tau ≤ 0) := by
  refine ⟨⟨?_, ?_⟩, ?_, ?_, ?_⟩
  · simp [advect_particles_one_step]
  · have h1 : (advect_particles_one_step ps valid ds_r ds_c dt tt ttc ch true).1 =
        ((ps.map (decTau dt)).filter (fun p => !(advTerminal valid p))).map
          (advectOne valid ds_r ds_c tt ttc ch) := by
      simp [advect_particles_one_step]
    rw [h1]
    simp only [List.length_map, ← List.countP_eq_length_filter]
    have hsplit := List.length_eq_countP_add_countP (advTerminal valid)
      (l := ps.map (decTau dt))
    rw [List.length_map] at hsplit
    have hnot : (ps.map (decTau dt)).countP
        (fun a => decide (¬ advTerminal valid a = true)) =
        (ps.map (decTau dt)).countP (fun p => !(advTerminal valid p)) := by
      apply List.countP_congr
      intro a _
      cases h : advTerminal valid a <;> simp [h]
    omega
  · simp [advect_particles_one_step]
  · simp [advect_particles_one_step]
  · intro i q0 hq hterm
    refine ⟨?_, rfl, rfl, rfl, ?_⟩
    · simp only [advect_particles_one_step, if_neg Bool.false_ne_true]
      rw [List.getElem?_map, List.getElem?_map, hq]
      simp [advectOne_of_terminal valid ds_r ds_c tt ttc ch _ hterm]
    · unfold advTerminal at hterm
      simp only [Bool.and_eq_true, decide_eq_true_eq] at hterm
      exact hterm.1

/-- Witness for advect_terminal_particles: a single particle with tau = 1 on
an all-terminal grid, stepped with dt = 1 and outflow_sink = false, stays in
place at the same cell with tau = 0. -/
theorem advect_terminal_particles_witness :
    (([({ r := 0, c := 0, vol := 2, tau := 1 } : Particle)])[0]? =
        some { r := 0, c := 0, vol := 2, tau := 1 } ∧
      advTerminal (fun _ _ => false)
        (decTau 1 { r := 0, c := 0, vol := 2, tau := 1 }) = true) ∧
    ((advect_particles_one_step [{ r := 0, c := 0, vol := 2, tau := 1 }]
          (fun _ _ => false) (fun _ _ => 0) (fun _ _ => 0) 1 5 7 none false).1[0]? =
        some (decTau 1 { r := 0, c := 0, vol := 2, tau := 1 }) ∧
      (decTau 1 ({ r := 0, c := 0, vol := 2, tau := 1 } : Particle)).r =
        ({ r := 0, c := 0, vol := 2, tau := 1 } : Particle).r ∧
      (decTau 1 ({ r := 0, c := 0, vol := 2, tau := 1 } : Particle)).c =
        ({ r := 0, c := 0, vol := 2, tau := 1 } : Particle).c ∧
      (decTau 1 ({ r := 0, c := 0, vol := 2, tau := 1 } : Particle)).vol =
        ({ r := 0, c := 0, vol := 2, tau := 1 } : Particle).vol ∧
      (decTau 1 ({ r := 0, c := 0, vol := 2, tau := 1 } : Particle)).tau ≤ 0) :=
  ⟨⟨by with_unfolding_all decide, by with_unfolding_all decide⟩,
    (advect_terminal_particles [{ r := 0, c := 0, vol := 2, tau := 1 }]
        (fun _ _ => false) (fun _ _ => 0) (fun _ _ => 0) 1 5 7 none).2.2.2 0
      { r := 0, c := 0, vol := 2, tau := 1 } (by with_unfolding_all decide)
      (by with_unfolding_all decide)⟩

end ClaimsAdvect

/-! ### Helper lemmas: cell enumeration and spawning -/

/-- The row-major cell list is the list product of the index ranges. -/
lemma allCells_eq (H W : ℕ) :
    allCells H W = (List.finRange H) ×ˢ (List.finRange W) := rfl

/-- The row-major cell list has no duplicates. -/
lemma allCells_nodup (H W : ℕ) : (allCells H W).Nodup := by
  rw [allCells_eq]
  exact (List.nodup_finRange H).product (List.nodup_finRange W)

/-- Every cell occurs in the row-major cell list. -/
lemma mem_allCells {H W : ℕ} (v : Cell H W) : v ∈ allCells H W := by
  rw [allCells_eq]
  exact List.mem_product.mpr ⟨List.mem_finRange _, List.mem_finRange _⟩

/-- A sum of naturals over a duplicate-free list whose entries vanish except
at one member equals the value there. -/
lemma sum_map_eq_single {α : Type} (l : List α) (hl : l.Nodup) (v : α)
    (hv : v ∈ l) (f : α → ℕ) (hf : ∀ w ∈ l, w ≠ v → f w = 0) :
    (l.map f).sum = f v := by
  induction l with
  | nil => cases hv
  | cons a t ih =>
    rcases List.mem_cons.mp hv with h | h
    · subst h
      have hrest : ∀ w ∈ t, f w = 0 := by
        intro w hw
        exact hf w (List.mem_cons_of_mem _ hw)
          (fun he => (List.nodup_cons.mp hl).1 (he ▸ hw))
      have : (t.map f).sum = 0 := by
        rw [List.sum_eq_zero]
        intro x hx
        rw [List.mem_map] at hx
        obtain ⟨w, hw, rfl⟩ := hx
        exact hrest w hw
      simp [this]
    · have ha : f a = 0 := hf a (List.mem_cons_self a t)
        (fun he => (List.nodup_cons.mp hl).1 (he ▸ h))
      rw [List.map_cons, List.sum_cons, ha, zero_add]
      exact ih (List.nodup_cons.mp hl).2 h
        (fun w hw hne => hf w (List.mem_cons_of_mem _ hw) hne)

section ClaimsSpawn

/-- Claim C6: spawn_particles_from_runoff_slab emits particles only at
active cells with positive runoff depth; each particle records that cell in
global coordinates, carries tau = 0 and volume V / n with V the cell volume
(depth times area) and n = max(1, round(V / v*)) its particle count; exactly
n particles are emitted at each such cell; and the returned total volume is
the sum of V over exactly those cells. -/
theorem spawn_particles_spec (h W : ℕ) (depth : Cell h W → ℚ) (r0 : ℕ)
    (area : CellArea (ℕ × ℕ)) (vstar : ℚ) (active : ℕ × ℕ → Bool) :
    (∀ p ∈ (spawn_particles_from_runoff_slab h W depth r0 area vstar active).1,
      ∃ v : Cell h W, 0 < depth v ∧ active (r0 + v.1, v.2) = true ∧
        p.r = ((r0 + v.1 : ℕ) : ℤ) ∧ p.c = ((v.2 : ℕ) : ℤ) ∧ p.tau = 0 ∧
        p.vol = spawnVol W depth r0 area v /
          (spawnCount W depth r0 area vstar v : ℚ)) ∧
    (∀ v : Cell h W, 0 < depth v → active (r0 + v.1, v.2) = true →
      (spawn_particles_from_runoff_slab h W depth r0 area vstar active).1.countP
          (fun p => decide (p.r = ((r0 + v.1 : ℕ) : ℤ)) &&
            decide (p.c = ((v.2 : ℕ) : ℤ))) =
        spawnCount W depth r0 area vstar v) ∧
    (spawn_particles_from_runoff_slab h W depth r0 area vstar active).2 =
      ∑ v ∈ Finset.univ.filter
        (fun v : Cell h W => 0 < depth v ∧ active (r0 + v.1, v.2) = true),
        spawnVol W depth r0 area v := by
  have hmax : ∀ v : Cell h W, 0 < max (depth v) 0 ↔ 0 < depth v := by
    intro v
    simp [lt_max_iff]
  have hcellmem : ∀ v : Cell h W,
      v ∈ spawnCells h W depth r0 active ↔
        0 < depth v ∧ active (r0 + v.1, v.2) = true := by
    intro v
    rw [spawnCells, List.mem_filter]
    simp only [decide_eq_true_eq, mem_allCells, true_and]
    rw [hmax]
  have hnodup : (spawnCells h W depth r0 active).Nodup :=
    (allCells_nodup h W).filter _
  refine ⟨?_, ?_, ?_⟩
  · intro p hp
    rw [spawn_particles_from_runoff_slab, List.mem_flatMap] at hp
    obtain ⟨v, hv, hpmem⟩ := hp
    rw [List.mem_replicate] at hpmem
    obtain ⟨-, rfl⟩ := hpmem
    rcases (hcellmem v).mp hv with ⟨h1, h2⟩
    exact ⟨v, h1, h2, rfl, rfl, rfl, rfl⟩
  · intro v hd ha
    rw [spawn_particles_from_runoff_slab]
    rw [List.countP_flatMap]
    rw [sum_map_eq_single _ hnodup v ((hcellmem v).mpr ⟨hd, ha⟩)]
    · rw [Function.comp_apply, List.countP_replicate, if_pos]
      simp
    · intro w hw hne
      rw [Function.comp_apply, List.countP_replicate, if_neg]
      simp only [Bool.and_eq_true, decide_eq_true_eq]
      rintro ⟨hr, hc⟩
      apply hne
      have hr2 : r0 + (w.1 : ℕ) = r0 + (v.1 : ℕ) := by exact_mod_cast hr
      have hc2 : (w.2 : ℕ) = (v.2 : ℕ) := by exact_mod_cast hc
      ext
      · omega
      · exact hc2
  · rw [spawn_particles_from_runoff_slab]
    have hfin : (spawnCells h W depth r0 active).toFinset =
        Finset.univ.filter
          (fun v : Cell h W => 0 < depth v ∧ active (r0 + v.1, v.2) = true) := by
      ext w
      rw [List.mem_toFinset, hcellmem, Finset.mem_filter]
      simp
    rw [← hfin, List.sum_toFinset _ hnodup]

/-- Witness for spawn_particles_spec on a 1 x 1 slab with depth 3 m, scalar
area 2 m^2 and target particle volume 4 m^3: the cell volume is 6 m^3,
6 / 4 rounds (half to even) to 2, so exactly 2 particles are emitted, each
of volume 3 m^3, and the total is 6 m^3. -/
theorem spawn_particles_spec_witness :
    ((0 : ℚ) < 3 ∧ (fun _ : ℕ × ℕ => true) (0 + (0 : Fin 1), (0 : Fin 1)) = true) ∧
    (spawn_particles_from_runoff_slab 1 1 (fun _ => 3) 0 (.scalar 2) 4
        (fun _ => true)).1.countP
        (fun p => decide (p.r = ((0 + ((0 : Fin 1) : ℕ) : ℕ) : ℤ)) &&
          decide (p.c = (((0 : Fin 1) : ℕ) : ℤ))) =
      spawnCount 1 (fun _ => 3) 0 (.scalar 2) 4 ((0 : Fin 1), (0 : Fin 1)) ∧
    spawnCount 1 (fun _ => 3) 0 (.scalar 2) 4 ((0 : Fin 1), (0 : Fin 1)) = 2 ∧
    spawnVol 1 (fun _ => 3) 0 (.scalar 2) ((0 : Fin 1), (0 : Fin 1)) = 6 :=
  ⟨⟨by norm_num, rfl⟩,
    (spawn_particles_spec 1 1 (fun _ => 3) 0 (.scalar 2) 4 (fun _ => true)).2.1
      ((0 : Fin 1), (0 : Fin 1)) (by norm_num) rfl,
    by with_unfolding_all decide,
    by with_unfolding_all decide⟩

end ClaimsSpawn

/-! ### Flow-accumulation sweep: instrumented state and invariants

The while loop of compute_flow_accum_area_m2 is analyzed through an
instrumented copy of the sweep state that additionally records, as ghost
data, the sets of cells popped so far, of cells processed so far (popped
while active with a valid downstream neighbor), and of cells ever pushed
(the initial seeds included).  The instrumented step projects onto the
source-faithful sweepStep, so every fact proved on the instrumented
iteration transfers to compute_flow_accum_area_m2. -/

/-- The edge relation of the direction graph as traversed by the sweep:
from an active cell to its valid downstream neighbor. -/
def flowEdge {H W : ℕ} (ds : Cell H W → Option (Cell H W))
    (active : Cell H W → Bool) (x y : Cell H W) : Prop :=
  active x = true ∧ ds x = some y

instance {H W : ℕ} (ds : Cell H W → Option (Cell H W))
    (active : Cell H W → Bool) (x y : Cell H W) :
    Decidable (flowEdge ds active x y) :=
  inferInstanceAs (Decidable (_ ∧ _))

/-- Instrumented sweep state: the three source fields plus ghost sets. -/
structure ISweepState (H W : ℕ) where
  acc : Cell H W → ℚ
  indeg : Cell H W → ℤ
  stack : List (Cell H W)
  popped : Finset (Cell H W)
  processed : Finset (Cell H W)
  pushed : Finset (Cell H W)

/-- Instrumented initial state: source fields as in sweepInit, ghost sets
empty except pushed, which records the seeds. -/
def isweepInit {H W : ℕ} (ds : Cell H W → Option (Cell H W))
    (area : CellArea (Cell H W)) (active : Cell H W → Bool) : ISweepState H W :=
  { acc := (sweepInit ds area active).acc
    indeg := (sweepInit ds area active).indeg
    stack := (sweepInit ds area active).stack
    popped := ∅
    processed := ∅
    pushed := (sweepInit ds area active).stack.toFinset }

/-- Instrumented loop body: mirrors sweepStep on the source fields and
updates the ghost sets. -/
def isweepStep {H W : ℕ} (ds : Cell H W → Option (Cell H W))
    (active : Cell H W → Bool) (s : ISweepState H W) : ISweepState H W :=
  match s.stack with
  | [] => s
  | v :: rest =>
    if active v = true then
      match ds v with
      | some d =>
        let indeg2 := Function.update s.indeg d (s.indeg d - 1)
        { acc := Function.update s.acc d (s.acc d + s.acc v)
          indeg := indeg2
          stack := if indeg2 d = 0 ∧ active d = true then d :: rest else rest
          popped := insert v s.popped
          processed := insert v s.processed
          pushed := if indeg2 d = 0 ∧ active d = true then insert d s.pushed
            else s.pushed }
      | none =>
        { s with stack := rest, popped := insert v s.popped }
    else { s with stack := rest, popped := insert v s.popped }

/-- Projection of the instrumented state onto the source state. -/
def projSweep {H W : ℕ} (s : ISweepState H W) : SweepState H W :=
  { acc := s.acc, indeg := s.indeg, stack := s.stack }

/-- The instrumented step projects onto the source step. -/
lemma projSweep_step {H W : ℕ} (ds : Cell H W → Option (Cell H W))
    (active : Cell H W → Bool) (s : ISweepState H W) :
    projSweep (isweepStep ds active s) = sweepStep ds active (projSweep s) := by
  rcases hs : s.stack with - | ⟨v, rest⟩
  · simp [isweepStep, sweepStep, projSweep, hs]
  · by_cases ha : active v = true
    · rcases hd : ds v with - | d
      · simp [isweepStep, sweepStep, projSweep, hs, ha, hd]
      · simp [isweepStep, sweepStep, projSweep, hs, ha, hd]
    · simp [isweepStep, sweepStep, projSweep, hs, ha]

/-- Iterated projection. -/
lemma projSweep_iterate {H W : ℕ} (ds : Cell H W → Option (Cell H W))
    (active : Cell H W → Bool) (n : ℕ) (s : ISweepState H W) :
    projSweep ((isweepStep ds active)^[n] s) =
      (sweepStep ds active)^[n] (projSweep s) := by
  induction n generalizing s with
  | zero => rfl
  | succ k ih =>
    rw [Function.iterate_succ_apply, Function.iterate_succ_apply,
      ← projSweep_step, ih]

/-- The instrumented initial state projects onto the source initial state. -/
lemma projSweep_init {H W : ℕ} (ds : Cell H W → Option (Cell H W))
    (area : CellArea (Cell H W)) (active : Cell H W → Bool) :
    projSweep (isweepInit ds area active) = sweepInit ds area active := rfl

/-- Membership in the predecessor set. -/
lemma mem_flowPreds {H W : ℕ} (ds : Cell H W → Option (Cell H W))
    (active : Cell H W → Bool) (x v : Cell H W) :
    x ∈ flowPreds ds active v ↔ active x = true ∧ ds x = some v := by
  simp [flowPreds]

/-- Difference against an enlarged set is an erase of the difference. -/
lemma sdiff_insert_eq_erase {α : Type} [DecidableEq α] (s t : Finset α) (v : α) :
    s \ insert v t = (s \ t).erase v := by
  ext w
  simp only [Finset.mem_sdiff, Finset.mem_erase, Finset.mem_insert]
  tauto

/-- Invariant of the instrumented sweep, relating the source fields to the
ghost sets:
the in-degree of every cell is its predecessor count minus the processed
predecessors; the pushed set is exactly the set of active cells all of whose
predecessors are processed; the stack holds, without duplicates, exactly the
pushed cells not yet popped; the processed cells are the popped cells that
were active with a valid downstream neighbor; and only pushed cells are ever
popped. -/
structure SweepInv {H W : ℕ} (ds : Cell H W → Option (Cell H W))
    (active : Cell H W → Bool) (s : ISweepState H W) : Prop where
  indeg_eq : ∀ v, s.indeg v = ((flowPreds ds active v).card : ℤ) -
    (((flowPreds ds active v ∩ s.processed).card : ℤ))
  pushed_eq : s.pushed = Finset.univ.filter
    (fun v => active v = true ∧ flowPreds ds active v ⊆ s.processed)
  stack_nodup : s.stack.Nodup
  stack_eq : s.stack.toFinset = s.pushed \ s.popped
  processed_eq : s.processed = s.popped.filter
    (fun v => active v = true ∧ (ds v).isSome)
  popped_sub : s.popped ⊆ s.pushed

/-- The invariant holds at the instrumented initial state. -/
lemma sweepInv_init {H W : ℕ} (ds : Cell H W → Option (Cell H W))
    (area : CellArea (Cell H W)) (active : Cell H W → Bool) :
    SweepInv ds active (isweepInit ds area active) := by
  have hstack0 : (isweepInit ds area active).stack.toFinset =
      Finset.univ.filter
        (fun v => active v = true ∧ flowPreds ds active v ⊆ (∅ : Finset (Cell H W))) := by
    ext w
    simp only [isweepInit, sweepInit, List.toFinset_reverse, List.mem_toFinset,
      List.mem_filter, mem_allCells, true_and, Finset.mem_filter, Finset.mem_univ,
      decide_eq_true_eq]
    constructor
    · rintro ⟨h1, h2⟩
      refine ⟨h1, ?_⟩
      rw [flowInitIndeg] at h2
      have : (flowPreds ds active w).card = 0 := by exact_mod_cast h2
      rw [Finset.card_eq_zero.mp this]
    · rintro ⟨h1, h2⟩
      refine ⟨h1, ?_⟩
      rw [flowInitIndeg]
      have : flowPreds ds active w = ∅ := Finset.subset_empty.mp h2
      rw [this]
      simp
  constructor
  · intro v
    simp [isweepInit, sweepInit, flowInitIndeg]
  · exact hstack0
  · simp only [isweepInit, sweepInit]
    exact List.nodup_reverse.mpr (List.Nodup.filter _ (allCells_nodup H W))
  · simp only [isweepInit]
    rw [Finset.sdiff_empty]
  · simp [isweepInit]
  · simp [isweepInit]

/-- Facts about the cell at the top of the stack under the invariant. -/
lemma sweepInv_top_facts {H W : ℕ} {ds : Cell H W → Option (Cell H W)}
    {active : Cell H W → Bool} {s : ISweepState H W}
    (hInv : SweepInv ds active s) {v : Cell H W} {rest : List (Cell H W)}
    (hs : s.stack = v :: rest) :
    v ∈ s.pushed ∧ v ∉ s.popped ∧ v ∉ s.processed ∧ rest.Nodup ∧ v ∉ rest ∧
      rest.toFinset = (s.pushed \ s.popped).erase v := by
  have hnd := hInv.stack_nodup
  rw [hs, List.nodup_cons] at hnd
  have hvmem : v ∈ s.stack.toFinset := by
    rw [hs]
    simp
  rw [hInv.stack_eq, Finset.mem_sdiff] at hvmem
  have hvnp : v ∉ s.processed := by
    intro h
    rw [hInv.processed_eq, Finset.mem_filter] at h
    exact hvmem.2 h.1
  refine ⟨hvmem.1, hvmem.2, hvnp, hnd.2, hnd.1, ?_⟩
  have : s.stack.toFinset = insert v rest.toFinset := by
    rw [hs, List.toFinset_cons]
  rw [hInv.stack_eq] at this
  rw [← Finset.erase_insert (a := v) (s := rest.toFinset) ?hna, ← this]
  case hna =>
    rw [List.mem_toFinset]
    exact hnd.1

/-- Facts about the downstream neighbor of the processed cell under the
invariant. -/
lemma sweepInv_process_facts {H W : ℕ} {ds : Cell H W → Option (Cell H W)}
    {active : Cell H W → Bool} {s : ISweepState H W}
    (hInv : SweepInv ds active s) {v d : Cell H W} {rest : List (Cell H W)}
    (hs : s.stack = v :: rest) (ha : active v = true) (hd : ds v = some d) :
    v ∈ flowPreds ds active d ∧ d ≠ v ∧ d ∉ s.pushed ∧ d ∉ s.popped := by
  obtain ⟨hvpushed, -, hvnp, -, -, -⟩ := sweepInv_top_facts hInv hs
  have hvpred : v ∈ flowPreds ds active d := (mem_flowPreds ds active v d).mpr ⟨ha, hd⟩
  have hnotpushed : ∀ w : Cell H W, v ∈ flowPreds ds active w → w ∉ s.pushed := by
    intro w hvw hwp
    rw [hInv.pushed_eq, Finset.mem_filter] at hwp
    exact hvnp (hwp.2.2 hvw)
  have hdnp : d ∉ s.pushed := hnotpushed d hvpred
  refine ⟨hvpred, ?_, hdnp, fun h => hdnp (hInv.popped_sub h)⟩
  intro he
  subst he
  exact hdnp hvpushed

/-- The invariant is preserved by one instrumented step. -/
lemma sweepInv_step {H W : ℕ} (ds : Cell H W → Option (Cell H W))
    (active : Cell H W → Bool) (s : ISweepState H W)
    (hInv : SweepInv ds active s) :
    SweepInv ds active (isweepStep ds active s) := by
  rcases hs : s.stack with - | ⟨v, rest⟩
  · have hid : isweepStep ds active s = s := by
      unfold isweepStep
      rw [hs]
    rw [hid]
    exact hInv
  obtain ⟨hvpushed, hvpopped, hvproc, hrnd, hvrest, hrfin⟩ :=
    sweepInv_top_facts hInv hs
  have hskip_stack : ∀ t : Finset (Cell H W), t = s.pushed →
      rest.toFinset = t \ insert v s.popped := by
    intro t ht
    rw [ht, sdiff_insert_eq_erase, hrfin]
  by_cases ha : active v = true
  · rcases hd : ds v with - | d
    · -- terminal skip branch: v is popped but not processed
      have hstep : isweepStep ds active s =
          { s with stack := rest, popped := insert v s.popped } := by
        unfold isweepStep
        rw [hs]
        simp [ha, hd]
      rw [hstep]
      constructor
      · exact hInv.indeg_eq
      · exact hInv.pushed_eq
      · exact hrnd
      · exact hskip_stack s.pushed rfl
      · rw [Finset.filter_insert, if_neg, ← hInv.processed_eq]
        rintro ⟨-, hsome⟩
        rw [hd] at hsome
        simp at hsome
      · exact Finset.insert_subset hvpushed hInv.popped_sub
    · -- processing branch
      obtain ⟨hvpred, hdnev, hdpushed, hdpopped⟩ :=
        sweepInv_process_facts hInv hs ha hd
      have hvproc2 : v ∉ flowPreds ds active d ∩ s.processed := by
        rw [Finset.mem_inter]
        rintro ⟨-, h⟩
        exact hvproc h
      -- predecessor sets against the enlarged processed set
      have hpred_ne : ∀ w : Cell H W, w ≠ d → v ∉ flowPreds ds active w := by
        intro w hw hmem
        rw [mem_flowPreds] at hmem
        rw [hmem.2] at hd
        exact hw (by injection hd)
      have hinter_ne : ∀ w : Cell H W, w ≠ d →
          flowPreds ds active w ∩ insert v s.processed =
            flowPreds ds active w ∩ s.processed := by
        intro w hw
        ext x
        simp only [Finset.mem_inter, Finset.mem_insert]
        constructor
        · rintro ⟨h1, h2 | h2⟩
          · subst h2
            exact absurd h1 (hpred_ne w hw)
          · exact ⟨h1, h2⟩
        · rintro ⟨h1, h2⟩
          exact ⟨h1, Or.inr h2⟩
      have hinter_d : flowPreds ds active d ∩ insert v s.processed =
          insert v (flowPreds ds active d ∩ s.processed) := by
        ext x
        simp only [Finset.mem_inter, Finset.mem_insert]
        constructor
        · rintro ⟨h1, h2 | h2⟩
          · exact Or.inl h2
          · exact Or.inr ⟨h1, h2⟩
        · rintro (rfl | ⟨h1, h2⟩)
          · exact ⟨hvpred, Or.inl rfl⟩
          · exact ⟨h1, Or.inr h2⟩
      have hsub_ne : ∀ w : Cell H W, w ≠ d →
          (flowPreds ds active w ⊆ insert v s.processed ↔
            flowPreds ds active w ⊆ s.processed) := by
        intro w hw
        constructor
        · intro hsub x hx
          rcases Finset.mem_insert.mp (hsub hx) with h | h
          · subst h
            exact absurd hx (hpred_ne w hw)
          · exact h
        · intro hsub
          exact hsub.trans (Finset.subset_insert _ _)
      -- the push condition is equivalent to full coverage of preds d
      have hcard_lt : (flowPreds ds active d ∩ s.processed).card <
          (flowPreds ds active d).card :=
        Finset.card_lt_card ⟨Finset.inter_subset_left,
          fun hsub => hvproc2 (hsub hvpred)⟩
      have hsub_d : Function.update s.indeg d (s.indeg d - 1) d = 0 ↔
          flowPreds ds active d ⊆ insert v s.processed := by
        rw [Function.update_same, hInv.indeg_eq d]
        constructor
        · intro h0
          have hc : (flowPreds ds active d ∩ insert v s.processed).card =
              (flowPreds ds active d).card := by
            rw [hinter_d, Finset.card_insert_of_not_mem hvproc2]
            omega
          intro x hx
          have := Finset.eq_of_subset_of_card_le Finset.inter_subset_left
            (le_of_eq hc.symm)
          rw [← this] at hx
          exact (Finset.mem_inter.mp hx).2
        · intro hsub
          have : flowPreds ds active d ∩ insert v s.processed =
              flowPreds ds active d := Finset.inter_eq_left.mpr hsub
          rw [hinter_d] at this
          have hc := congrArg Finset.card this
          rw [Finset.card_insert_of_not_mem hvproc2] at hc
          omega
      -- name the updated fields
      have hstep : isweepStep ds active s =
          { acc := Function.update s.acc d (s.acc d + s.acc v)
            indeg := Function.update s.indeg d (s.indeg d - 1)
            stack := if Function.update s.indeg d (s.indeg d - 1) d = 0 ∧
                active d = true then d :: rest else rest
            popped := insert v s.popped
            processed := insert v s.processed
            pushed := if Function.update s.indeg d (s.indeg d - 1) d = 0 ∧
                active d = true then insert d s.pushed else s.pushed } := by
        unfold isweepStep
        rw [hs]
        simp [ha, hd]
      rw [hstep]
      have hpushed_new : (if Function.update s.indeg d (s.indeg d - 1) d = 0 ∧
          active d = true then insert d s.pushed else s.pushed) =
          Finset.univ.filter (fun w => active w = true ∧
            flowPreds ds active w ⊆ insert v s.processed) := by
        split
        · next hcond =>
          rw [hInv.pushed_eq]
          ext w
          simp only [Finset.mem_insert, Finset.mem_filter, Finset.mem_univ,
            true_and]
          by_cases hw : w = d
          · subst hw
            simp only [true_or, true_iff]
            exact ⟨hcond.2, hsub_d.mp hcond.1⟩
          · simp only [hw, false_or]
            rw [hsub_ne w hw]
        · next hcond =>
          rw [hInv.pushed_eq]
          ext w
          simp only [Finset.mem_filter, Finset.mem_univ, true_and]
          by_cases hw : w = d
          · subst hw
            constructor
            · intro h
              exact absurd (hInv.pushed_eq ▸ Finset.mem_filter.mpr
                ⟨Finset.mem_univ w, h⟩ : w ∈ s.pushed) hdpushed
            · rintro ⟨h1, h2⟩
              exact absurd ⟨hsub_d.mpr h2, h1⟩ hcond
          · rw [hsub_ne w hw]
      constructor
      · -- indeg_eq
        intro w
        dsimp only
        by_cases hw : w = d
        · subst hw
          rw [Function.update_same, hInv.indeg_eq, hinter_d,
            Finset.card_insert_of_not_mem hvproc2]
          push_cast
          ring
        · rw [Function.update_noteq hw, hInv.indeg_eq, hinter_ne w hw]
      · -- pushed_eq
        exact hpushed_new
      · -- stack_nodup
        dsimp only
        split
        · next hcond =>
          rw [List.nodup_cons]
          refine ⟨?_, hrnd⟩
          intro hdr
          have : d ∈ s.pushed := by
            have : d ∈ (s.pushed \ s.popped).erase v := by
              rw [← hrfin, List.mem_toFinset]
              exact hdr
            exact (Finset.mem_sdiff.mp (Finset.mem_of_mem_erase this)).1
          exact hdpushed this
        · exact hrnd
      · -- stack_eq
        dsimp only
        split
        · next hcond =>
          rw [List.toFinset_cons, hrfin, sdiff_insert_eq_erase]
          ext w
          simp only [Finset.mem_insert, Finset.mem_erase, Finset.mem_sdiff]
          by_cases hw : w = d
          · subst hw
            simp [hdnev, hdpopped]
          · simp only [hw, false_or]
        · next hcond =>
          rw [hrfin, sdiff_insert_eq_erase]
      · -- processed_eq
        dsimp only
        rw [Finset.filter_insert]
        rw [if_pos]
        · rw [← hInv.processed_eq]
        · exact ⟨ha, by rw [hd]; rfl⟩
      · -- popped_sub
        dsimp only
        split
        · exact (Finset.insert_subset hvpushed hInv.popped_sub).trans
            (Finset.subset_insert _ _)
        · exact Finset.insert_subset hvpushed hInv.popped_sub
  · -- inactive skip branch
    have hstep : isweepStep ds active s =
        { s with stack := rest, popped := insert v s.popped } := by
      unfold isweepStep
      rw [hs]
      simp [ha]
    rw [hstep]
    constructor
    · exact hInv.indeg_eq
    · exact hInv.pushed_eq
    · exact hrnd
    · exact hskip_stack s.pushed rfl
    · rw [Finset.filter_insert, if_neg, ← hInv.processed_eq]
      rintro ⟨h1, -⟩
      exact ha h1
    · exact Finset.insert_subset hvpushed hInv.popped_sub

/-- When the in-degree of the downstream neighbor reaches zero, all its
predecessors are covered by the processed set enlarged by the popped cell. -/
lemma sweepInv_indeg_zero_subset {H W : ℕ} {ds : Cell H W → Option (Cell H W)}
    {active : Cell H W → Bool} {s : ISweepState H W}
    (hInv : SweepInv ds active s) {v d : Cell H W} {rest : List (Cell H W)}
    (hs : s.stack = v :: rest) (ha : active v = true) (hd : ds v = some d)
    (h0 : s.indeg d - 1 = 0) :
    flowPreds ds active d ⊆ insert v s.processed := by
  obtain ⟨-, -, hvproc, -, -, -⟩ := sweepInv_top_facts hInv hs
  have hvpred : v ∈ flowPreds ds active d := (mem_flowPreds ds active v d).mpr ⟨ha, hd⟩
  have hvproc2 : v ∉ flowPreds ds active d ∩ s.processed := by
    rw [Finset.mem_inter]
    rintro ⟨-, h⟩
    exact hvproc h
  have hinter_d : flowPreds ds active d ∩ insert v s.processed =
      insert v (flowPreds ds active d ∩ s.processed) := by
    ext x
    simp only [Finset.mem_inter, Finset.mem_insert]
    constructor
    · rintro ⟨h1, h2 | h2⟩
      · exact Or.inl h2
      · exact Or.inr ⟨h1, h2⟩
    · rintro (rfl | ⟨h1, h2⟩)
      · exact ⟨hvpred, Or.inl rfl⟩
      · exact ⟨h1, Or.inr h2⟩
  rw [hInv.indeg_eq d] at h0
  have hc : (flowPreds ds active d ∩ insert v s.processed).card =
      (flowPreds ds active d).card := by
    rw [hinter_d, Finset.card_insert_of_not_mem hvproc2]
    omega
  intro x hx
  have := Finset.eq_of_subset_of_card_le Finset.inter_subset_left
    (le_of_eq hc.symm)
  rw [← this] at hx
  exact (Finset.mem_inter.mp hx).2

/-- Termination measure of the sweep: stack length plus the number of cells
never pushed. -/
def sweepMeasure {H W : ℕ} (s : ISweepState H W) : ℕ :=
  s.stack.length + (H * W - s.pushed.card)

/-- The number of cells bounds the pushed set. -/
lemma cellset_card_le {H W : ℕ} (t : Finset (Cell H W)) : t.card ≤ H * W := by
  have := Finset.card_le_univ t
  rwa [Fintype.card_prod, Fintype.card_fin, Fintype.card_fin] at this

lemma pushed_card_le {H W : ℕ} (s : ISweepState H W) : s.pushed.card ≤ H * W :=
  cellset_card_le s.pushed

/-- On a nonempty stack, one instrumented step decreases the measure by
exactly one: it pops a cell and pushes at most one never-pushed cell. -/
lemma sweepMeasure_step {H W : ℕ} (ds : Cell H W → Option (Cell H W))
    (active : Cell H W → Bool) (s : ISweepState H W)
    (hInv : SweepInv ds active s) (hne : s.stack ≠ []) :
    sweepMeasure (isweepStep ds active s) + 1 = sweepMeasure s := by
  rcases hs : s.stack with - | ⟨v, rest⟩
  · exact absurd hs hne
  have hlen : s.stack.length = rest.length + 1 := by rw [hs]; rfl
  by_cases ha : active v = true
  · rcases hd : ds v with - | d
    · have h1 : (isweepStep ds active s).stack = rest := by
        unfold isweepStep
        rw [hs]
        simp [ha, hd]
      have h2 : (isweepStep ds active s).pushed = s.pushed := by
        unfold isweepStep
        rw [hs]
        simp [ha, hd]
      unfold sweepMeasure
      rw [h1, h2]
      omega
    · obtain ⟨-, -, hdpushed, -⟩ := sweepInv_process_facts hInv hs ha hd
      by_cases hcond : s.indeg d - 1 = 0 ∧ active d = true
      · have h1 : (isweepStep ds active s).stack = d :: rest := by
          unfold isweepStep
          rw [hs]
          simp [ha, hd, hcond.1, hcond.2]
        have h2 : (isweepStep ds active s).pushed = insert d s.pushed := by
          unfold isweepStep
          rw [hs]
          simp [ha, hd, hcond.1, hcond.2]
        have h3 := cellset_card_le (insert d s.pushed)
        unfold sweepMeasure
        rw [h1, h2, Finset.card_insert_of_not_mem hdpushed]
        rw [Finset.card_insert_of_not_mem hdpushed] at h3
        simp only [List.length_cons]
        omega
      · have h1 : (isweepStep ds active s).stack = rest := by
          unfold isweepStep
          rw [hs]
          simp [ha, hd] <;> first | tauto | simp_all
        have h2 : (isweepStep ds active s).pushed = s.pushed := by
          unfold isweepStep
          rw [hs]
          simp [ha, hd] <;> first | tauto | simp_all
        unfold sweepMeasure
        rw [h1, h2]
        omega
  · have h1 : (isweepStep ds active s).stack = rest := by
      unfold isweepStep
      rw [hs]
      simp [ha]
    have h2 : (isweepStep ds active s).pushed = s.pushed := by
      unfold isweepStep
      rw [hs]
      simp [ha]
    unfold sweepMeasure
    rw [h1, h2]
    omega

/-- The invariant holds along the whole iteration. -/
lemma sweepInv_iterate {H W : ℕ} (ds : Cell H W → Option (Cell H W))
    (active : Cell H W → Bool) (s : ISweepState H W)
    (hInv : SweepInv ds active s) (n : ℕ) :
    SweepInv ds active ((isweepStep ds active)^[n] s) := by
  induction n generalizing s with
  | zero => exact hInv
  | succ k ih =>
    rw [Function.iterate_succ_apply]
    exact ih _ (sweepInv_step ds active s hInv)

/-- An empty stack is a fixed point of the instrumented step. -/
lemma isweepStep_empty {H W : ℕ} (ds : Cell H W → Option (Cell H W))
    (active : Cell H W → Bool) (s : ISweepState H W) (hs : s.stack = []) :
    isweepStep ds active s = s := by
  unfold isweepStep
  rw [hs]

/-- Enough iterations of the instrumented step empty the stack: the measure
shrinks each step, so the loop halts within sweepMeasure iterations. -/
lemma sweep_stack_empties {H W : ℕ} (ds : Cell H W → Option (Cell H W))
    (active : Cell H W → Bool) (n : ℕ) :
    ∀ s : ISweepState H W, SweepInv ds active s → sweepMeasure s ≤ n →
      ((isweepStep ds active)^[n] s).stack = [] := by
  induction n with
  | zero =>
    intro s hInv hm
    unfold sweepMeasure at hm
    rcases hstack : s.stack with - | ⟨v, rest⟩
    · exact hstack
    · rw [hstack] at hm
      simp at hm
  | succ k ih =>
    intro s hInv hm
    rcases hstack : s.stack with - | ⟨v, rest⟩
    · rw [Function.iterate_fixed (isweepStep_empty ds active s hstack)]
      exact hstack
    · rw [Function.iterate_succ_apply]
      apply ih _ (sweepInv_step ds active s hInv)
      have := sweepMeasure_step ds active s hInv (by rw [hstack]; simp)
      omega

/-- The initial measure is at most the number of cells. -/
lemma sweepMeasure_init_le {H W : ℕ} (ds : Cell H W → Option (Cell H W))
    (area : CellArea (Cell H W)) (active : Cell H W → Bool) :
    sweepMeasure (isweepInit ds area active) ≤ H * W := by
  unfold sweepMeasure
  have hcard : (isweepInit ds area active).pushed.card =
      (isweepInit ds area active).stack.length := by
    have hnd := (sweepInv_init ds area active).stack_nodup
    exact List.toFinset_card_of_nodup hnd
  have := pushed_card_le (isweepInit ds area active)
  omega

/-- A cell on a directed cycle has a predecessor that also lies on a cycle. -/
lemma cycle_pred {H W : ℕ} (ds : Cell H W → Option (Cell H W))
    (active : Cell H W → Bool) (u : Cell H W)
    (hu : Relation.TransGen (flowEdge ds active) u u) :
    ∃ w, w ∈ flowPreds ds active u ∧
      Relation.TransGen (flowEdge ds active) w w := by
  obtain ⟨w, hrt, hwu⟩ := Relation.TransGen.tail'_iff.mp hu
  exact ⟨w, (mem_flowPreds ds active w u).mpr ⟨hwu.1, hwu.2⟩,
    Relation.TransGen.head' hwu hrt⟩

/-- One instrumented step never pushes a cell lying on a directed cycle. -/
lemma sweep_cycle_step {H W : ℕ} (ds : Cell H W → Option (Cell H W))
    (active : Cell H W → Bool) (s : ISweepState H W)
    (hInv : SweepInv ds active s)
    (hJ : ∀ u, Relation.TransGen (flowEdge ds active) u u → u ∉ s.pushed) :
    ∀ u, Relation.TransGen (flowEdge ds active) u u →
      u ∉ (isweepStep ds active s).pushed := by
  intro u hu hmem
  rcases hs : s.stack with - | ⟨v, rest⟩
  · rw [isweepStep_empty ds active s hs] at hmem
    exact hJ u hu hmem
  obtain ⟨hvpushed, -, -, -, -, -⟩ := sweepInv_top_facts hInv hs
  by_cases ha : active v = true
  · rcases hd : ds v with - | d
    · have hp : (isweepStep ds active s).pushed = s.pushed := by
        unfold isweepStep
        rw [hs]
        simp [ha, hd]
      rw [hp] at hmem
      exact hJ u hu hmem
    · by_cases hcond : s.indeg d - 1 = 0 ∧ active d = true
      · have hp : (isweepStep ds active s).pushed = insert d s.pushed := by
          unfold isweepStep
          rw [hs]
          simp [ha, hd, hcond.1, hcond.2]
        rw [hp, Finset.mem_insert] at hmem
        rcases hmem with rfl | hmem
        · -- the pushed cell u = d would lie on a cycle: contradiction
          obtain ⟨w, hwpred, hwcyc⟩ := cycle_pred ds active u hu
          have hsub := sweepInv_indeg_zero_subset hInv hs ha hd hcond.1
          rcases Finset.mem_insert.mp (hsub hwpred) with rfl | hwproc
          · exact hJ w hwcyc hvpushed
          · have hwpop : w ∈ s.popped := by
              have := hInv.processed_eq ▸ hwproc
              exact (Finset.mem_filter.mp this).1
            exact hJ w hwcyc (hInv.popped_sub hwpop)
        · exact hJ u hu hmem
      · have hp : (isweepStep ds active s).pushed = s.pushed := by
          unfold isweepStep
          rw [hs]
          simp [ha, hd] <;> first | tauto | simp_all
        rw [hp] at hmem
        exact hJ u hu hmem
  · have hp : (isweepStep ds active s).pushed = s.pushed := by
      unfold isweepStep
      rw [hs]
      simp [ha]
    rw [hp] at hmem
    exact hJ u hu hmem

/-- Initially, no cell on a directed cycle is a seed. -/
lemma sweep_cycle_init {H W : ℕ} (ds : Cell H W → Option (Cell H W))
    (area : CellArea (Cell H W)) (active : Cell H W → Bool) :
    ∀ u, Relation.TransGen (flowEdge ds active) u u →
      u ∉ (isweepInit ds area active).pushed := by
  intro u hu hmem
  obtain ⟨w, hwpred, -⟩ := cycle_pred ds active u hu
  have hps := (sweepInv_init ds area active).pushed_eq ▸ hmem
  have hsub := (Finset.mem_filter.mp hps).2.2
  exact absurd (hsub hwpred) (Finset.not_mem_empty w)

/-- Along the whole instrumented iteration, no cycle cell is ever pushed. -/
lemma sweep_cycle_iterate {H W : ℕ} (ds : Cell H W → Option (Cell H W))
    (area : CellArea (Cell H W)) (active : Cell H W → Bool) (n : ℕ) :
    ∀ u, Relation.TransGen (flowEdge ds active) u u →
      u ∉ ((isweepStep ds active)^[n] (isweepInit ds area active)).pushed := by
  induction n with
  | zero => exact sweep_cycle_init ds area active
  | succ k ih =>
    rw [Function.iterate_succ_apply']
    exact sweep_cycle_step ds active _
      (sweepInv_iterate ds active _ (sweepInv_init ds area active) k) ih

section ClaimsSweepTermination

/-- Claim C8: the sweep of compute_flow_accum_area_m2 terminates on every
input: every cell is pushed at most once, so the while loop runs for at most
H * W iterations and iterating the loop body H * W times empties the work
stack (first conjunct; compute_flow_accum_area_m2 is exactly the
accumulation raster of that iterate, second conjunct).  Direction rasters
with cycles raise no error: a cell lying on a directed cycle is never pushed
onto the stack at any point of the iteration and its in-degree always stays
positive, so it only ever holds whatever partial value the sweep has
accumulated when the loop stops (third conjunct). -/
theorem flow_sweep_terminates_and_cycles {H W : ℕ} (d8 : Cell H W → ℤ)
    (enc : D8Encoding) (area : CellArea (Cell H W)) (active : Cell H W → Bool) :
    ((sweepStep (build_downstream_index d8 enc) active)^[H * W]
        (sweepInit (build_downstream_index d8 enc) area active)).stack = [] ∧
    compute_flow_accum_area_m2 d8 enc area active =
      ((sweepStep (build_downstream_index d8 enc) active)^[H * W]
        (sweepInit (build_downstream_index d8 enc) area active)).acc ∧
    (∀ v : Cell H W,
      Relation.TransGen (flowEdge (build_downstream_index d8 enc) active) v v →
      ∀ n : ℕ,
        v ∉ ((sweepStep (build_downstream_index d8 enc) active)^[n]
            (sweepInit (build_downstream_index d8 enc) area active)).stack ∧
        0 < ((sweepStep (build_downstream_index d8 enc) active)^[n]
            (sweepInit (build_downstream_index d8 enc) area active)).indeg v) := by
  set ds := build_downstream_index d8 enc with hds
  have hproj : ∀ n : ℕ, (sweepStep ds active)^[n] (sweepInit ds area active) =
      projSweep ((isweepStep ds active)^[n] (isweepInit ds area active)) := by
    intro n
    rw [projSweep_iterate, projSweep_init]
  refine ⟨?_, rfl, ?_⟩
  · rw [hproj]
    exact sweep_stack_empties ds active (H * W) (isweepInit ds area active)
      (sweepInv_init ds area active) (sweepMeasure_init_le ds area active)
  · intro v hv n
    have hInv := sweepInv_iterate ds active _ (sweepInv_init ds area active) n
    have hJ := sweep_cycle_iterate ds area active n v hv
    constructor
    · rw [hproj n]
      intro hmem
      have hfin : v ∈ ((isweepStep ds active)^[n] (isweepInit ds area active)).stack.toFinset :=
        List.mem_toFinset.mpr hmem
      rw [hInv.stack_eq] at hfin
      exact hJ (Finset.mem_sdiff.mp hfin).1
    · rw [hproj n]
      show 0 < ((isweepStep ds active)^[n] (isweepInit ds area active)).indeg v
      rw [hInv.indeg_eq v]
      obtain ⟨w, hwpred, hwcyc⟩ := cycle_pred ds active v hv
      have hwnp : w ∉ ((isweepStep ds active)^[n] (isweepInit ds area active)).processed := by
        intro hwp
        have hwpop := (Finset.mem_filter.mp (hInv.processed_eq ▸ hwp)).1
        exact sweep_cycle_iterate ds area active n w hwcyc (hInv.popped_sub hwpop)
      have hlt : (flowPreds ds active v ∩
          ((isweepStep ds active)^[n] (isweepInit ds area active)).processed).card <
          (flowPreds ds active v).card := by
        apply Finset.card_lt_card
        constructor
        · exact Finset.inter_subset_left
        · intro hsub
          have := hsub hwpred
          exact hwnp (Finset.mem_inter.mp this).2
      omega

/-- Witness for flow_sweep_terminates_and_cycles on a 1 x 2 grid whose two
cells point at each other (ESRI codes 1 = east and 16 = west): the cell
(0, 0) lies on a cycle, is never stacked, and keeps positive in-degree. -/
theorem flow_sweep_terminates_and_cycles_witness :
    Relation.TransGen
      (flowEdge (build_downstream_index
        (fun v : Cell 1 2 => if v.2 = (0 : Fin 2) then (1 : ℤ) else 16) .esri)
        (fun _ => true)) (0, 0) (0, 0) ∧
    ∀ n : ℕ,
      ((0, 0) : Cell 1 2) ∉ ((sweepStep (build_downstream_index
          (fun v : Cell 1 2 => if v.2 = (0 : Fin 2) then (1 : ℤ) else 16) .esri)
          (fun _ => true))^[n]
        (sweepInit (build_downstream_index
          (fun v : Cell 1 2 => if v.2 = (0 : Fin 2) then (1 : ℤ) else 16) .esri)
          (.scalar 1) (fun _ => true))).stack ∧
      0 < ((sweepStep (build_downstream_index
          (fun v : Cell 1 2 => if v.2 = (0 : Fin 2) then (1 : ℤ) else 16) .esri)
          (fun _ => true))^[n]
        (sweepInit (build_downstream_index
          (fun v : Cell 1 2 => if v.2 = (0 : Fin 2) then (1 : ℤ) else 16) .esri)
          (.scalar 1) (fun _ => true))).indeg (0, 0) := by
  have hcyc : Relation.TransGen
      (flowEdge (build_downstream_index
        (fun v : Cell 1 2 => if v.2 = (0 : Fin 2) then (1 : ℤ) else 16) .esri)
        (fun _ => true)) (0, 0) (0, 0) :=
    Relation.TransGen.head (b := ((0, 1) : Cell 1 2)) ⟨rfl, by decide⟩
      (Relation.TransGen.single ⟨rfl, by decide⟩)
  exact ⟨hcyc, fun n =>
    (flow_sweep_terminates_and_cycles
      (fun v : Cell 1 2 => if v.2 = (0 : Fin 2) then (1 : ℤ) else 16) .esri
      (.scalar 1) (fun _ => true)).2.2 (0, 0) hcyc n⟩

end ClaimsSweepTermination

/-! ### Flow-accumulation correctness on acyclic direction graphs -/

/-- A chain in the direction graph all of whose non-final cells lie in S:
the paths along which accumulated area has been forwarded once the cells of
S are processed. -/
def ReachThrough {H W : ℕ} (ds : Cell H W → Option (Cell H W))
    (active : Cell H W → Bool) (S : Finset (Cell H W)) (x y : Cell H W) : Prop :=
  Relation.ReflTransGen (fun a b => a ∈ S ∧ flowEdge ds active a b) x y

/-- Chains through a smaller set are chains through a larger set. -/
lemma reachThrough_mono {H W : ℕ} {ds : Cell H W → Option (Cell H W)}
    {active : Cell H W → Bool} {S T : Finset (Cell H W)} (hST : S ⊆ T)
    {x y : Cell H W} (h : ReachThrough ds active S x y) :
    ReachThrough ds active T x y :=
  Relation.ReflTransGen.mono (fun a b hab => ⟨hST hab.1, hab.2⟩) h

/-- The direction graph is functional: one outgoing edge per cell. -/
lemma flowEdge_functional {H W : ℕ} {ds : Cell H W → Option (Cell H W)}
    {active : Cell H W → Bool} {a b c : Cell H W}
    (h1 : flowEdge ds active a b) (h2 : flowEdge ds active a c) : b = c := by
  have := h1.2.symm.trans h2.2
  injection this

/-- A cell not in S admits no nontrivial chain through S: any chain from it
is trivial. -/
lemma reachThrough_of_not_mem {H W : ℕ} {ds : Cell H W → Option (Cell H W)}
    {active : Cell H W → Bool} {S : Finset (Cell H W)} {x y : Cell H W}
    (h : ReachThrough ds active S x y) (hx : x ∉ S) : x = y := by
  rcases Relation.ReflTransGen.cases_head h with h | ⟨c, hc, -⟩
  · exact h
  · exact absurd hc.1 hx

/-- Two chains through S from the same cell are comparable: the graph is
functional, so every cell has a unique forward orbit. -/
lemma reachThrough_comparable {H W : ℕ} {ds : Cell H W → Option (Cell H W)}
    {active : Cell H W → Bool} {S : Finset (Cell H W)} {y a b : Cell H W}
    (h1 : ReachThrough ds active S y a) (h2 : ReachThrough ds active S y b) :
    ReachThrough ds active S a b ∨ ReachThrough ds active S b a := by
  induction h1 using Relation.ReflTransGen.head_induction_on with
  | refl => exact Or.inl h2
  | @head y' c hedge hchain ih =>
    rcases Relation.ReflTransGen.cases_head h2 with rfl | ⟨c2, hc2, hrest⟩
    · exact Or.inr (Relation.ReflTransGen.head hedge hchain)
    · have hcc : c = c2 := flowEdge_functional hedge.2 hc2.2
      subst hcc
      exact ih hrest

/-- Enlarging the processed set by the popped cell v (whose unique
downstream neighbor is d, with v, d unprocessed and distinct) creates
exactly the chains that run through v and end at d. -/
lemma reachThrough_insert_iff {H W : ℕ} {ds : Cell H W → Option (Cell H W)}
    {active : Cell H W → Bool} {S : Finset (Cell H W)} {v d : Cell H W}
    (hv : v ∉ S) (hdS : d ∉ S) (hdv : d ≠ v)
    (hE : flowEdge ds active v d) (y w : Cell H W) :
    ReachThrough ds active (insert v S) y w ↔
      ReachThrough ds active S y w ∨ (ReachThrough ds active S y v ∧ w = d) := by
  constructor
  · intro h
    induction h using Relation.ReflTransGen.head_induction_on with
    | refl => exact Or.inl Relation.ReflTransGen.refl
    | @head y' c hedge hchain ih =>
      rcases Finset.mem_insert.mp hedge.1 with rfl | hyS
      · -- the chain starts at v, so its first step goes to d
        have hcd : c = d := flowEdge_functional hedge.2 hE
        subst hcd
        rcases ih with hcw | ⟨hcv, rfl⟩
        · have := reachThrough_of_not_mem hcw hdS
          subst this
          exact Or.inr ⟨Relation.ReflTransGen.refl, rfl⟩
        · have := reachThrough_of_not_mem hcv hdS
          exact absurd this hdv
      · rcases ih with hcw | ⟨hcv, rfl⟩
        · exact Or.inl (Relation.ReflTransGen.head ⟨hyS, hedge.2⟩ hcw)
        · exact Or.inr ⟨Relation.ReflTransGen.head ⟨hyS, hedge.2⟩ hcv, rfl⟩
  · rintro (h | ⟨h, rfl⟩)
    · exact reachThrough_mono (Finset.subset_insert v S) h
    · exact Relation.ReflTransGen.tail
        (reachThrough_mono (Finset.subset_insert v S) h)
        ⟨Finset.mem_insert_self v S, hE⟩

/-- No cell reaches both the popped cell v and its downstream neighbor d
through S alone (the chain to d would have to run through v, but v is not
in S). -/
lemma reachThrough_disjoint {H W : ℕ} {ds : Cell H W → Option (Cell H W)}
    {active : Cell H W → Bool} {S : Finset (Cell H W)} {v d : Cell H W}
    (hv : v ∉ S) (hdS : d ∉ S) (hdv : d ≠ v) {y : Cell H W}
    (h1 : ReachThrough ds active S y d) (h2 : ReachThrough ds active S y v) :
    False := by
  rcases reachThrough_comparable h1 h2 with h | h
  · exact hdv (reachThrough_of_not_mem h hdS)
  · exact hdv (reachThrough_of_not_mem h hv).symm

open Classical in
/-- Invariant of the accumulation raster along the sweep: every cell holds
the total initial area of the cells that reach it along chains whose
non-final cells are all processed. -/
def AccInv {H W : ℕ} (ds : Cell H W → Option (Cell H W))
    (active : Cell H W → Bool) (area : CellArea (Cell H W))
    (s : ISweepState H W) : Prop :=
  ∀ v, s.acc v = ∑ x : Cell H W,
    if ReachThrough ds active s.processed x v then flowInitAcc area active x
    else 0

open Classical in
/-- The accumulation invariant holds initially: nothing is processed, so
only the trivial chain exists and every cell holds its own initial value. -/
lemma accInv_init {H W : ℕ} (ds : Cell H W → Option (Cell H W))
    (area : CellArea (Cell H W)) (active : Cell H W → Bool) :
    AccInv ds active area (isweepInit ds area active) := by
  intro v
  have hreach : ∀ x : Cell H W,
      ReachThrough ds active (isweepInit ds area active).processed x v ↔ x = v := by
    intro x
    constructor
    · intro h
      exact reachThrough_of_not_mem h (by simp [isweepInit])
    · rintro rfl
      exact Relation.ReflTransGen.refl
  calc (isweepInit ds area active).acc v = flowInitAcc area active v := rfl
    _ = ∑ x : Cell H W, if x = v then flowInitAcc area active x else 0 := by
        rw [Finset.sum_ite_eq' Finset.univ v (fun x => flowInitAcc area active x)]
        simp
    _ = _ := by
        refine Finset.sum_congr rfl fun x _ => ?_
        exact if_congr (hreach x).symm rfl rfl

open Classical in
/-- The accumulation invariant is preserved by one instrumented step:
forwarding the finished value of the popped cell to its downstream neighbor
accounts exactly for the chains newly enabled by marking the cell
processed. -/
lemma accInv_step {H W : ℕ} (ds : Cell H W → Option (Cell H W))
    (active : Cell H W → Bool) (area : CellArea (Cell H W))
    (s : ISweepState H W) (hInv : SweepInv ds active s)
    (hAcc : AccInv ds active area s) :
    AccInv ds active area (isweepStep ds active s) := by
  rcases hs : s.stack with - | ⟨v, rest⟩
  · rw [isweepStep_empty ds active s hs]
    exact hAcc
  obtain ⟨hvpushed, hvpopped, hvproc, -, -, -⟩ := sweepInv_top_facts hInv hs
  by_cases ha : active v = true
  · rcases hd : ds v with - | d
    · have hstep : isweepStep ds active s =
          { s with stack := rest, popped := insert v s.popped } := by
        unfold isweepStep
        rw [hs]
        simp [ha, hd]
      rw [hstep]
      exact fun w => hAcc w
    · obtain ⟨hvpred, hdnev, hdpushed, hdpopped⟩ :=
        sweepInv_process_facts hInv hs ha hd
      have hdproc : d ∉ s.processed := fun h =>
        hdpopped ((Finset.mem_filter.mp (hInv.processed_eq ▸ h)).1)
      have hE : flowEdge ds active v d := ⟨ha, hd⟩
      have hstep : isweepStep ds active s =
          { acc := Function.update s.acc d (s.acc d + s.acc v)
            indeg := Function.update s.indeg d (s.indeg d - 1)
            stack := if Function.update s.indeg d (s.indeg d - 1) d = 0 ∧
                active d = true then d :: rest else rest
            popped := insert v s.popped
            processed := insert v s.processed
            pushed := if Function.update s.indeg d (s.indeg d - 1) d = 0 ∧
                active d = true then insert d s.pushed else s.pushed } := by
        unfold isweepStep
        rw [hs]
        simp [ha, hd]
      rw [hstep]
      intro w
      show Function.update s.acc d (s.acc d + s.acc v) w = ∑ x : Cell H W,
        if ReachThrough ds active (insert v s.processed) x w then
          flowInitAcc area active x else 0
      by_cases hw : w = d
      · subst hw
        rw [Function.update_same, hAcc w, hAcc v, ← Finset.sum_add_distrib]
        refine Finset.sum_congr rfl fun x _ => ?_
        have hiff := reachThrough_insert_iff hvproc hdproc hdnev hE x w
        by_cases h1 : ReachThrough ds active s.processed x w <;>
          by_cases h2 : ReachThrough ds active s.processed x v
        · exact (reachThrough_disjoint hvproc hdproc hdnev h1 h2).elim
        · simp [h1, h2, hiff]
        · simp [h1, h2, hiff]
        · simp [h1, h2, hiff]
      · rw [Function.update_noteq hw, hAcc w]
        refine Finset.sum_congr rfl fun x _ => ?_
        refine if_congr ?_ rfl rfl
        rw [reachThrough_insert_iff hvproc hdproc hdnev hE x w]
        simp [hw]
  · have hstep : isweepStep ds active s =
        { s with stack := rest, popped := insert v s.popped } := by
      unfold isweepStep
      rw [hs]
      simp [ha]
    rw [hstep]
    exact fun w => hAcc w

/-- The accumulation invariant holds along the whole iteration. -/
lemma accInv_iterate {H W : ℕ} (ds : Cell H W → Option (Cell H W))
    (active : Cell H W → Bool) (area : CellArea (Cell H W)) (n : ℕ) :
    AccInv ds active area ((isweepStep ds active)^[n] (isweepInit ds area active)) := by
  induction n with
  | zero => exact accInv_init ds area active
  | succ k ih =>
    rw [Function.iterate_succ_apply']
    exact accInv_step ds active area _
      (sweepInv_iterate ds active _ (sweepInv_init ds area active) k) ih

/-- When the stack has emptied and the direction graph is acyclic, every
active cell with a downstream neighbor has been processed. -/
lemma processed_complete {H W : ℕ} {ds : Cell H W → Option (Cell H W)}
    {active : Cell H W → Bool} {s : ISweepState H W}
    (hInv : SweepInv ds active s) (hempty : s.stack = [])
    (hacyc : ∀ u : Cell H W, ¬ Relation.TransGen (flowEdge ds active) u u) :
    ∀ v : Cell H W, active v = true → (ds v).isSome = true →
      v ∈ s.processed := by
  have hwf : WellFounded (Relation.TransGen (flowEdge ds active)) := by
    letI : IsTrans (Cell H W) (Relation.TransGen (flowEdge ds active)) :=
      ⟨fun _ _ _ hab hbc => Relation.TransGen.trans hab hbc⟩
    letI : IsIrrefl (Cell H W) (Relation.TransGen (flowEdge ds active)) :=
      ⟨hacyc⟩
    exact Finite.wellFounded_of_trans_of_irrefl _
  intro v
  refine @WellFounded.induction _ _ hwf
    (fun u => active u = true → (ds u).isSome = true → u ∈ s.processed) v ?_
  intro x ih hax hdx
  have hpush : x ∈ s.pushed := by
    rw [hInv.pushed_eq]
    refine Finset.mem_filter.mpr ⟨Finset.mem_univ x, hax, ?_⟩
    intro w hw
    rw [mem_flowPreds] at hw
    exact ih w (Relation.TransGen.single ⟨hw.1, hw.2⟩) hw.1
      (by rw [hw.2]; rfl)
  have hpop : x ∈ s.popped := by
    have h0 : s.pushed \ s.popped = ∅ := by
      rw [← hInv.stack_eq, hempty]
      rfl
    exact Finset.sdiff_eq_empty_iff_subset.mp h0 hpush
  rw [hInv.processed_eq]
  exact Finset.mem_filter.mpr ⟨hpop, hax, hdx⟩

/-- After termination on an acyclic graph, chains through the processed set
are exactly the chains of the direction graph. -/
lemma reachThrough_processed_iff {H W : ℕ} {ds : Cell H W → Option (Cell H W)}
    {active : Cell H W → Bool} {s : ISweepState H W}
    (hInv : SweepInv ds active s) (hempty : s.stack = [])
    (hacyc : ∀ u : Cell H W, ¬ Relation.TransGen (flowEdge ds active) u u)
    (x v : Cell H W) :
    ReachThrough ds active s.processed x v ↔
      Relation.ReflTransGen (flowEdge ds active) x v := by
  constructor
  · exact Relation.ReflTransGen.mono (fun a b hab => hab.2)
  · intro h
    induction h using Relation.ReflTransGen.head_induction_on with
    | refl => exact Relation.ReflTransGen.refl
    | @head a c hedge hchain ih =>
      refine Relation.ReflTransGen.head ⟨?_, hedge⟩ ih
      exact processed_complete hInv hempty hacyc a hedge.1
        (by rw [hedge.2]; rfl)

section ClaimsFlowAccum

open Classical in
/-- Claim C4: on a direction graph without cycles,
compute_flow_accum_area_m2 returns, at every active cell, the sum of the
cell areas of all active cells from which a directed chain of active cells
leads to it, the cell itself included (a chain step goes from an active cell
to its valid downstream neighbor, so every non-final cell of a chain is
active by construction). -/
theorem flow_accum_correct_on_dag {H W : ℕ} (d8 : Cell H W → ℤ)
    (enc : D8Encoding) (area : CellArea (Cell H W)) (active : Cell H W → Bool)
    (hacyc : ∀ u : Cell H W,
      ¬ Relation.TransGen (flowEdge (build_downstream_index d8 enc) active) u u)
    (v : Cell H W) (hv : active v = true) :
    compute_flow_accum_area_m2 d8 enc area active v =
      ∑ x ∈ Finset.univ.filter (fun x : Cell H W => active x = true ∧
        Relation.ReflTransGen (flowEdge (build_downstream_index d8 enc) active) x v),
        areaAt area x := by
  set ds := build_downstream_index d8 enc with hds
  have hInv := sweepInv_iterate ds active _ (sweepInv_init ds area active) (H * W)
  have hAcc := accInv_iterate ds active area (H * W)
  have hempty : ((isweepStep ds active)^[H * W] (isweepInit ds area active)).stack = [] :=
    sweep_stack_empties ds active (H * W) (isweepInit ds area active)
      (sweepInv_init ds area active) (sweepMeasure_init_le ds area active)
  have hcf : compute_flow_accum_area_m2 d8 enc area active =
      ((isweepStep ds active)^[H * W] (isweepInit ds area active)).acc := by
    show (((sweepStep ds active)^[H * W]) (sweepInit ds area active)).acc = _
    rw [← projSweep_init ds area active, ← projSweep_iterate]
    rfl
  rw [hcf, hAcc v]
  rw [Finset.sum_filter]
  refine Finset.sum_congr rfl fun x _ => ?_
  rw [if_congr (reachThrough_processed_iff hInv hempty hacyc x v) rfl rfl]
  unfold flowInitAcc
  by_cases hax : active x = true <;>
    by_cases hrx : Relation.ReflTransGen (flowEdge ds active) x v <;>
    simp [hax, hrx]

/-- A rank function increasing along edges certifies acyclicity. -/
lemma acyclic_of_rank {H W : ℕ} {ds : Cell H W → Option (Cell H W)}
    {active : Cell H W → Bool} (rk : Cell H W → ℕ)
    (hrk : ∀ x y, flowEdge ds active x y → rk x < rk y) :
    ∀ u : Cell H W, ¬ Relation.TransGen (flowEdge ds active) u u := by
  have hmono : ∀ a b, Relation.TransGen (flowEdge ds active) a b → rk a < rk b := by
    intro a b h
    induction h with
    | single h1 => exact hrk _ _ h1
    | tail hab hbc ih => exact lt_trans ih (hrk _ _ hbc)
  intro u hu
  exact lt_irrefl _ (hmono u u hu)

set_option maxHeartbeats 1000000 in
open Classical in
/-- Witness for flow_accum_correct_on_dag: the 1 x 10 row in which every
cell drains east (ESRI code 1), all active, scalar cell area 1 m^2.  The
direction graph is acyclic (the column index increases along edges), the
theorem applies, and the accumulated area is [1, 2, ..., 10] m^2. -/
theorem flow_accum_correct_on_dag_witness :
    ((∀ u : Cell 1 10, ¬ Relation.TransGen
        (flowEdge (build_downstream_index (fun _ : Cell 1 10 => (1 : ℤ)) .esri)
          (fun _ => true)) u u) ∧
      (fun _ : Cell 1 10 => true) ((0, 4) : Cell 1 10) = true) ∧
    compute_flow_accum_area_m2 (fun _ : Cell 1 10 => (1 : ℤ)) .esri
        (.scalar 1) (fun _ => true) (0, 4) =
      ∑ x ∈ Finset.univ.filter (fun x : Cell 1 10 =>
        (fun _ : Cell 1 10 => true) x = true ∧ Relation.ReflTransGen
          (flowEdge (build_downstream_index (fun _ : Cell 1 10 => (1 : ℤ)) .esri)
            (fun _ => true)) x (0, 4)),
        areaAt (.scalar 1) x ∧
    (∀ c : Fin 10, compute_flow_accum_area_m2 (fun _ : Cell 1 10 => (1 : ℤ))
        .esri (.scalar 1) (fun _ => true) (0, c) = ((c : ℕ) : ℚ) + 1) := by
  have hacyc : ∀ u : Cell 1 10, ¬ Relation.TransGen
      (flowEdge (build_downstream_index (fun _ : Cell 1 10 => (1 : ℤ)) .esri)
        (fun _ => true)) u u :=
    acyclic_of_rank (fun v => (v.2 : ℕ)) (by decide)
  refine ⟨⟨hacyc, rfl⟩, ?_⟩
  constructor
  · exact flow_accum_correct_on_dag (fun _ : Cell 1 10 => (1 : ℤ)) .esri
      (.scalar 1) (fun _ => true) hacyc (0, 4) rfl
  · with_unfolding_all decide

end ClaimsFlowAccum

end LPerfect
